import Mathlib

/-!
Verification of the MFA (Multivariate Functional Approximation) core:
shallow embedding of the B-spline basis evaluation, knot insertion,
encoding and decoding routines of `mfa_data.hpp`, `encode.hpp` and
`decode.hpp`, together with proofs about them.

Real-number arithmetic of the source (`T` = float or double) is embedded
as exact rational arithmetic `ℚ`; machine indices are `ℕ`.  Out-of-range
vector accesses of the source are embedded with `List.getD`; theorems carry
the bounds hypotheses under which the source performs no such access.
-/

namespace MFA

/-! ## Span location: `MFA_Data::FindSpan` (mfa_data.hpp:189-211) -/

/-- Binary-search loop of `MFA_Data::FindSpan`.  The C++ loop mutates `low`,
`high`, `mid`; here the pair `(low, high)` is threaded through a fuel-indexed
recursion, `mid` being recomputed at the head of each iteration exactly as the
source recomputes it after updating `low`/`high`.  `none` means the fuel was
exhausted (the C++ loop would still be running). -/
def findSpanLoop (knots : List ℚ) (u : ℚ) : ℕ → ℕ → ℕ → Option ℕ
  | _, _, 0 => none
  | low, high, fuel + 1 =>
    let mid := (low + high) / 2
    if u < knots.getD mid 0 ∨ knots.getD (mid + 1) 0 ≤ u then
      if u < knots.getD mid 0 then
        findSpanLoop knots u low mid fuel
      else
        findSpanLoop knots u mid high fuel
    else
      some mid

/-- `MFA_Data::FindSpan(cur_dim, u, nctrl_pts)`: binary search for the knot
span containing parameter `u`.  The boundary case `u == knots[nctrl_pts]`
returns `nctrl_pts - 1` before the loop starts; otherwise the loop runs with
`low = p`, `high = nctrl_pts`.  Fuel `nctrl + 1` dominates the interval
width, so a terminating C++ run is reproduced exactly. -/
def findSpan (p : ℕ) (knots : List ℚ) (u : ℚ) (nctrl : ℕ) : Option ℕ :=
  if u = knots.getD nctrl 0 then some (nctrl - 1)
  else findSpanLoop knots u p nctrl (nctrl + 1)

/-- Correctness of the binary-search loop: starting from a bracketing
interval it terminates with an index satisfying the span condition. -/
theorem findSpanLoop_spec (knots : List ℚ) (u : ℚ) :
    ∀ fuel low high, low < high → high - low ≤ fuel →
    knots.getD low 0 ≤ u → u < knots.getD high 0 →
    ∃ i, findSpanLoop knots u low high fuel = some i ∧
      low ≤ i ∧ i < high ∧ knots.getD i 0 ≤ u ∧ u < knots.getD (i + 1) 0 := by
  intro fuel
  induction fuel with
  | zero =>
    intro low high h1 h2 _ _
    omega
  | succ n ih =>
    intro low high hlh hfuel hlow hhigh
    simp only [findSpanLoop]
    by_cases hcond : u < knots.getD ((low + high) / 2) 0 ∨
        knots.getD ((low + high) / 2 + 1) 0 ≤ u
    · rw [if_pos hcond]
      by_cases hlt : u < knots.getD ((low + high) / 2) 0
      · rw [if_pos hlt]
        have hlm : low < (low + high) / 2 := by
          rcases Nat.lt_or_ge low ((low + high) / 2) with h | h
          · exact h
          · exfalso
            have hml : (low + high) / 2 = low := by omega
            rw [hml] at hlt
            exact absurd hlow (not_le.mpr hlt)
        obtain ⟨i, heq, hi1, hi2, hi3, hi4⟩ :=
          ih low ((low + high) / 2) hlm (by omega) hlow hlt
        exact ⟨i, heq, hi1, by omega, hi3, hi4⟩
      · rw [if_neg hlt]
        have hge : knots.getD ((low + high) / 2 + 1) 0 ≤ u := by
          rcases hcond with h | h
          · exact absurd h hlt
          · exact h
        have hlm : low < (low + high) / 2 := by
          rcases Nat.lt_or_ge low ((low + high) / 2) with h | h
          · exact h
          · exfalso
            have hml : (low + high) / 2 = low := by omega
            have hh1 : high = low + 1 := by omega
            rw [hml] at hge
            rw [hh1] at hhigh
            have : low + 1 = low + 1 := rfl
            exact absurd hhigh (not_lt.mpr (by simpa using hge))
        have hmh : (low + high) / 2 < high := by omega
        obtain ⟨i, heq, hi1, hi2, hi3, hi4⟩ :=
          ih ((low + high) / 2) high hmh (by omega) (not_lt.mp hlt) hhigh
        exact ⟨i, heq, by omega, hi2, hi3, hi4⟩
    · rw [if_neg hcond]
      push_neg at hcond
      exact ⟨(low + high) / 2, rfl, by omega, by omega, hcond.1, hcond.2⟩

/-- C2: for a non-decreasing clamped knot vector of length `nctrl + p + 1`
and a parameter `u ∈ [knots[p], knots[nctrl]]`, `FindSpan` terminates and
returns an index `i ∈ [p, nctrl - 1]` with `knots[i] ≤ u < knots[i+1]`; in
the boundary case `u = knots[nctrl]` it returns `nctrl - 1`. -/
theorem findSpan_correct (p nctrl : ℕ) (knots : List ℚ) (u : ℚ)
    (hsort : knots.Sorted (· ≤ ·))
    (hlen : knots.length = nctrl + p + 1)
    (hpn : p < nctrl)
    (hu1 : knots.getD p 0 ≤ u) (hu2 : u ≤ knots.getD nctrl 0) :
    ∃ i, findSpan p knots u nctrl = some i ∧ p ≤ i ∧ i ≤ nctrl - 1 ∧
      (u = knots.getD nctrl 0 → i = nctrl - 1) ∧
      (u ≠ knots.getD nctrl 0 → knots.getD i 0 ≤ u ∧ u < knots.getD (i + 1) 0) := by
  by_cases hb : u = knots.getD nctrl 0
  · refine ⟨nctrl - 1, ?_, by omega, le_refl _, fun _ => rfl, fun hne => absurd hb hne⟩
    simp [findSpan, hb]
  · have hlt : u < knots.getD nctrl 0 := lt_of_le_of_ne hu2 hb
    obtain ⟨i, heq, hi1, hi2, hi3, hi4⟩ :=
      findSpanLoop_spec knots u (nctrl + 1) p nctrl hpn (by omega) hu1 hlt
    refine ⟨i, ?_, hi1, by omega, fun h => absurd h hb, fun _ => ⟨hi3, hi4⟩⟩
    unfold findSpan
    rw [if_neg hb]
    exact heq

/-- Witness for C2 at a concrete input: degree 1, knots `{0,0,1,2,2}`,
`nctrl = 3`, `u = 1/2`. -/
theorem findSpan_correct_witness :
    ∃ i, findSpan 1 [0, 0, 1, 2, 2] (1/2 : ℚ) 3 = some i ∧ 1 ≤ i ∧ i ≤ 2 ∧
      ((1/2 : ℚ) = ([0, 0, 1, 2, 2] : List ℚ).getD 3 0 → i = 2) ∧
      ((1/2 : ℚ) ≠ ([0, 0, 1, 2, 2] : List ℚ).getD 3 0 →
        ([0, 0, 1, 2, 2] : List ℚ).getD i 0 ≤ 1/2 ∧
          (1/2 : ℚ) < ([0, 0, 1, 2, 2] : List ℚ).getD (i + 1) 0) :=
  findSpan_correct 1 3 [0, 0, 1, 2, 2] (1/2) (by decide) (by decide) (by decide)
    (by norm_num) (by norm_num)

/-! ## Basis functions: `MFA_Data::OrigBasisFuns` (mfa_data.hpp:325-369)

The Cox–de Boor recurrence (P&T algorithm 2.2).  `FastBasisFuns`
(mfa_data.hpp:378-422) performs the identical arithmetic in place on `N`
instead of a scratch vector, so this embedding covers both. -/

/-- Inner loop (`for r`) of the recurrence in `MFA_Data::OrigBasisFuns`:
walks along the scratch vector carrying `saved`; each entry `scratch[r]`
becomes `saved + right[r+1] * temp` with `temp = scratch[r] / (right[r+1] +
left[j-r])`, and the final `saved` is appended as `scratch[j]`. -/
def coxInner (left right : ℕ → ℚ) (j : ℕ) : ℕ → ℚ → List ℚ → List ℚ
  | _, saved, [] => [saved]
  | r, saved, s :: rest =>
    (saved + right (r + 1) * (s / (right (r + 1) + left (j - r)))) ::
      coxInner left right j (r + 1) (left (j - r) * (s / (right (r + 1) + left (j - r)))) rest

/-- Outer loop (`for j`) of `MFA_Data::OrigBasisFuns`: after `j` rounds the
scratch vector holds the `j + 1` non-zero degree-`j` basis values. -/
def coxScratch (left right : ℕ → ℚ) : ℕ → List ℚ
  | 0 => [1]
  | j + 1 => coxInner left right (j + 1) 0 0 (coxScratch left right j)

/-- The `p + 1` basis values written by `MFA_Data::OrigBasisFuns` into
columns `span - p .. span` of row `row` of `N`, with
`left[j] = u - knots[span + 1 - j]` and `right[j] = knots[span + j] - u`. -/
def origBasisFuns (p : ℕ) (knots : List ℚ) (u : ℚ) (span : ℕ) : List ℚ :=
  coxScratch (fun j => u - knots.getD (span + 1 - j) 0)
    (fun j => knots.getD (span + j) 0 - u) p

theorem coxInner_length (left right : ℕ → ℚ) (j : ℕ) :
    ∀ (scr : List ℚ) (r : ℕ) (saved : ℚ),
      (coxInner left right j r saved scr).length = scr.length + 1 := by
  intro scr
  induction scr with
  | nil => intro r saved; simp [coxInner]
  | cons s rest ih => intro r saved; simp [coxInner, ih]

theorem coxScratch_length (left right : ℕ → ℚ) (j : ℕ) :
    (coxScratch left right j).length = j + 1 := by
  induction j with
  | zero => simp [coxScratch]
  | succ n ih => simp [coxScratch, coxInner_length, ih]

theorem coxInner_sum (left right : ℕ → ℚ) (j : ℕ) :
    ∀ (scr : List ℚ) (r : ℕ) (saved : ℚ),
      (∀ m < scr.length, right (r + 1 + m) + left (j - (r + m)) ≠ 0) →
      (coxInner left right j r saved scr).sum = saved + scr.sum := by
  intro scr
  induction scr with
  | nil => intro r saved _; simp [coxInner]
  | cons s rest ih =>
    intro r saved hd
    have hd0 : right (r + 1) + left (j - r) ≠ 0 := by
      have := hd 0 (by simp)
      simpa using this
    have hdrest : ∀ m < rest.length, right (r + 1 + 1 + m) + left (j - (r + 1 + m)) ≠ 0 := by
      intro m hm
      have := hd (m + 1) (by simp; omega)
      have harg1 : r + 1 + (m + 1) = r + 1 + 1 + m := by omega
      have harg2 : r + (m + 1) = r + 1 + m := by omega
      rw [harg1, harg2] at this
      exact this
    simp only [coxInner, List.sum_cons]
    rw [ih (r + 1) (left (j - r) * (s / (right (r + 1) + left (j - r)))) hdrest]
    have hsplit : right (r + 1) * (s / (right (r + 1) + left (j - r))) +
        left (j - r) * (s / (right (r + 1) + left (j - r))) = s := by
      rw [← add_mul]
      exact mul_div_cancel₀ s hd0
    linarith [hsplit]

theorem coxScratch_sum (left right : ℕ → ℚ) (p : ℕ)
    (hd : ∀ j, 1 ≤ j → j ≤ p → ∀ m < j, right (m + 1) + left (j - m) ≠ 0) :
    (coxScratch left right p).sum = 1 := by
  induction p with
  | zero => simp [coxScratch]
  | succ n ih =>
    have ihs : (coxScratch left right n).sum = 1 :=
      ih (fun j h1 h2 m hm => hd j h1 (by omega) m hm)
    have hlen := coxScratch_length left right n
    have hdn : ∀ m < (coxScratch left right n).length,
        right (0 + 1 + m) + left ((n + 1) - (0 + m)) ≠ 0 := by
      intro m hm
      rw [hlen] at hm
      have := hd (n + 1) (by omega) (le_refl _) m (by omega)
      have h1 : 0 + 1 + m = m + 1 := by omega
      have h2 : (n + 1) - (0 + m) = (n + 1) - m := by omega
      rw [h1, h2]
      exact this
    simp only [coxScratch, coxInner_sum left right (n + 1) _ 0 0 hdn, ihs, zero_add]

theorem coxInner_nonneg (left right : ℕ → ℚ) (j : ℕ) :
    ∀ (scr : List ℚ) (r : ℕ) (saved : ℚ),
      0 ≤ saved → (∀ x ∈ scr, 0 ≤ x) →
      (∀ m < scr.length, 0 ≤ right (r + 1 + m)) →
      (∀ m < scr.length, 0 ≤ left (j - (r + m))) →
      ∀ x ∈ coxInner left right j r saved scr, 0 ≤ x := by
  intro scr
  induction scr with
  | nil =>
    intro r saved hs _ _ _ x hx
    simp only [coxInner, List.mem_singleton] at hx
    exact hx ▸ hs
  | cons s rest ih =>
    intro r saved hs hl hr hlft x hx
    have hs0 : 0 ≤ s := hl s (by simp)
    have hr0 : 0 ≤ right (r + 1) := by simpa using hr 0 (by simp)
    have hl0 : 0 ≤ left (j - r) := by simpa using hlft 0 (by simp)
    have ht : 0 ≤ s / (right (r + 1) + left (j - r)) :=
      div_nonneg hs0 (by linarith)
    simp only [coxInner, List.mem_cons] at hx
    rcases hx with hx | hx
    · rw [hx]; positivity
    · refine ih (r + 1) _ (by positivity) (fun y hy => hl y (by simp [hy])) ?_ ?_ x hx
      · intro m hm
        have := hr (m + 1) (by simp; omega)
        have harg : r + 1 + (m + 1) = r + 1 + 1 + m := by omega
        rw [harg] at this
        exact this
      · intro m hm
        have := hlft (m + 1) (by simp; omega)
        have harg : r + (m + 1) = r + 1 + m := by omega
        rw [harg] at this
        exact this

theorem coxScratch_nonneg (left right : ℕ → ℚ) (p : ℕ)
    (hr : ∀ m, 1 ≤ m → m ≤ p → 0 ≤ right m)
    (hlft : ∀ m, 1 ≤ m → m ≤ p → 0 ≤ left m) :
    ∀ x ∈ coxScratch left right p, 0 ≤ x := by
  induction p with
  | zero =>
    intro x hx
    simp only [coxScratch, List.mem_singleton] at hx
    rw [hx]; norm_num
  | succ n ih =>
    have ihn : ∀ x ∈ coxScratch left right n, 0 ≤ x :=
      ih (fun m h1 h2 => hr m h1 (by omega)) (fun m h1 h2 => hlft m h1 (by omega))
    have hlen := coxScratch_length left right n
    intro x hx
    refine coxInner_nonneg left right (n + 1) (coxScratch left right n) 0 0
      (le_refl 0) ihn ?_ ?_ x hx
    · intro m hm
      rw [hlen] at hm
      exact hr (0 + 1 + m) (by omega) (by omega)
    · intro m hm
      rw [hlen] at hm
      exact hlft ((n + 1) - (0 + m)) (by omega) (by omega)

/-- Monotone access into a sorted list via `getD`. -/
theorem sorted_getD_mono (l : List ℚ) (h : l.Sorted (· ≤ ·)) {a b : ℕ}
    (hab : a ≤ b) (hb : b < l.length) : l.getD a 0 ≤ l.getD b 0 := by
  rcases Nat.eq_or_lt_of_le hab with rfl | hlt
  · exact le_refl _
  · have ha : a < l.length := lt_trans hlt hb
    rw [l.getD_eq_getElem 0 ha, l.getD_eq_getElem 0 hb]
    exact List.pairwise_iff_getElem.mp h a b ha hb hlt

/-- The p+1 basis values of `OrigBasisFuns` sum to one: core lemma shared by
the partition-of-unity theorem and the decoder-equivalence theorem. -/
theorem origBasisFuns_sum (p span : ℕ) (knots : List ℚ) (u : ℚ)
    (hsort : knots.Sorted (· ≤ ·))
    (hps : p ≤ span) (hlen : span + p < knots.length)
    (hu1 : knots.getD span 0 ≤ u) (hu2 : u < knots.getD (span + 1) 0) :
    (origBasisFuns p knots u span).sum = 1 := by
  refine coxScratch_sum _ _ p ?_
  intro j h1 h2 m hm
  have hlo : knots.getD (span + 1 - (j - m)) 0 ≤ u := by
    refine le_trans (sorted_getD_mono knots hsort ?_ ?_) hu1
    · omega
    · omega
  have hhi : u < knots.getD (span + (m + 1)) 0 := by
    refine lt_of_lt_of_le hu2 (sorted_getD_mono knots hsort ?_ ?_)
    · omega
    · omega
  intro hcontra
  have : knots.getD (span + (m + 1)) 0 = knots.getD (span + 1 - (j - m)) 0 := by linarith
  linarith

/-- C5: for every parameter `u` in the knot range (strictly inside its span)
of a non-decreasing knot vector, the `p + 1` basis values produced by
`OrigBasisFuns` (the Cox–de Boor recurrence) are non-negative and sum to
exactly 1. -/
theorem origBasisFuns_partition_of_unity (p span : ℕ) (knots : List ℚ) (u : ℚ)
    (hsort : knots.Sorted (· ≤ ·))
    (hps : p ≤ span) (hlen : span + p < knots.length)
    (hu1 : knots.getD span 0 ≤ u) (hu2 : u < knots.getD (span + 1) 0) :
    (origBasisFuns p knots u span).length = p + 1 ∧
    (origBasisFuns p knots u span).sum = 1 ∧
    ∀ x ∈ origBasisFuns p knots u span, 0 ≤ x := by
  refine ⟨coxScratch_length _ _ p,
    origBasisFuns_sum p span knots u hsort hps hlen hu1 hu2, ?_⟩
  refine coxScratch_nonneg _ _ p ?_ ?_
  · intro m h1 h2
    have : u ≤ knots.getD (span + m) 0 :=
      le_of_lt (lt_of_lt_of_le hu2 (sorted_getD_mono knots hsort (by omega) (by omega)))
    linarith
  · intro m h1 h2
    have : knots.getD (span + 1 - m) 0 ≤ u :=
      le_trans (sorted_getD_mono knots hsort (by omega) (by omega)) hu1
    linarith

/-- Witness for C5: degree 2, knots `{0,0,0,1,2,2,2}`, span 2, `u = 1/2`. -/
theorem origBasisFuns_partition_of_unity_witness :
    (origBasisFuns 2 [0, 0, 0, 1, 2, 2, 2] (1/2 : ℚ) 2).length = 2 + 1 ∧
    (origBasisFuns 2 [0, 0, 0, 1, 2, 2, 2] (1/2 : ℚ) 2).sum = 1 ∧
    ∀ x ∈ origBasisFuns 2 [0, 0, 0, 1, 2, 2, 2] (1/2 : ℚ) 2, 0 ≤ x :=
  origBasisFuns_partition_of_unity 2 2 [0, 0, 0, 1, 2, 2, 2] (1/2) (by decide)
    (by decide) (by decide) (by norm_num) (by norm_num)

/-! ## Decoding: `Decoder::VolPt` (decode.hpp:1092-1196) versus
`Decoder::FastVolPt` (decode.hpp:1341-1407)

Both routines evaluate the same `(p+1)^d` weighted combination of control
points over the local support cube, with dimension 0 varying fastest.
The configuration `FastVolPt` requires is `MFA_NO_WEIGHTS` (all weights 1)
and a one-dimensional science variable, so control points are scalars; a
control point is addressed by its per-dimension local indices
`[i_0, i_1, ..., i_{d-1}]` (the source linearizes this with strides `cs`
and `jumps`). -/

/-- `Decoder::FastVolPt` accumulation (n-mode-product style): dimension 0 is
contracted with the control points first (`t[0][id] = Σ_a N[0][a] *
ctrl_pts(ctrl_idx + a)`), then each subsequent dimension `k` is contracted
with the previous partial result (`t[k][id] = Σ_l N[k][l] * t[k-1][m+l]`).
The final scalar is `t[d-1][0]`. -/
def fastVolVal : List (List ℚ) → (List ℕ → ℚ) → ℚ
  | [], c => c []
  | N :: Ns, c =>
    fastVolVal Ns (fun ix => ∑ a ∈ Finset.range N.length, N.getD a 0 * c (a :: ix))

/-- `Decoder::VolPt` accumulation (volume-iterator style): the flat iterator
walks the `(p+1)^d` cube with dimension 0 fastest; `temp[0]` accumulates the
dimension-0 partial sums, and each time dimension `k` completes its sub-cube
the fold `temp[k+1] += N[k+1][i_{k+1}] * temp[k]` fires.  The resulting
value of `temp[d-1]` is the sum over the index of the highest dimension of
its basis value times the completed lower-dimensional sub-cube; this
recursion consumes the dimension list from the highest dimension downward,
appending the bound index after the lower-dimensional ones. -/
def volAccum : List (List ℚ) → (List ℕ → ℚ) → ℚ
  | [], c => c []
  | N :: Ns, c =>
    ∑ a ∈ Finset.range N.length, N.getD a 0 * volAccum Ns (fun ix => c (ix ++ [a]))

/-- Numerator of `Decoder::VolPt` with unit weights: the dimension list is
given lowest dimension first (as in the source), so the volume-iterator
recursion sees it reversed. -/
def volPtNum (Ns : List (List ℚ)) (c : List ℕ → ℚ) : ℚ := volAccum Ns.reverse c

/-- Decoded value of `Decoder::VolPt` (weigh-only-range build, unit weights,
one-dimensional science variable): the single output coordinate is the last
coordinate, so it is divided by the rational denominator
`temp_denom(dom_dim - 1)`, which accumulates with the identical fold
structure with control points replaced by the weights (all 1). -/
def volPtOut (Ns : List (List ℚ)) (c : List ℕ → ℚ) : ℚ :=
  volPtNum Ns c / volPtNum Ns (fun _ => 1)

/-- Decoded value of `Decoder::FastVolPt`: `out_pt(0) = t[dom_dim - 1][0]`,
with no rational denominator (the build requires `MFA_NO_WEIGHTS`). -/
def fastVolPtOut (Ns : List (List ℚ)) (c : List ℕ → ℚ) : ℚ := fastVolVal Ns c

/-- Common normal form of both accumulations: the fully nested sum with the
lowest dimension bound outermost. -/
def nestedSum : List (List ℚ) → (List ℕ → ℚ) → ℚ
  | [], c => c []
  | N :: Ns, c =>
    ∑ a ∈ Finset.range N.length, N.getD a 0 * nestedSum Ns (fun ix => c (a :: ix))

theorem nestedSum_finsum (Ns : List (List ℚ)) (q : ℕ) :
    ∀ f : ℕ → List ℕ → ℚ,
      nestedSum Ns (fun ix => ∑ a ∈ Finset.range q, f a ix) =
        ∑ a ∈ Finset.range q, nestedSum Ns (f a) := by
  induction Ns with
  | nil => intro f; simp [nestedSum]
  | cons N Ns ih =>
    intro f
    simp only [nestedSum]
    have hrw : ∀ b, nestedSum Ns (fun ix => ∑ a ∈ Finset.range q, f a (b :: ix)) =
        ∑ a ∈ Finset.range q, nestedSum Ns (fun ix => f a (b :: ix)) :=
      fun b => ih (fun a ix => f a (b :: ix))
    calc (∑ b ∈ Finset.range N.length,
            N.getD b 0 * nestedSum Ns (fun ix => ∑ a ∈ Finset.range q, f a (b :: ix)))
        = ∑ b ∈ Finset.range N.length,
            ∑ a ∈ Finset.range q, N.getD b 0 * nestedSum Ns (fun ix => f a (b :: ix)) := by
          refine Finset.sum_congr rfl fun b _ => ?_
          rw [hrw b, Finset.mul_sum]
      _ = ∑ a ∈ Finset.range q,
            ∑ b ∈ Finset.range N.length, N.getD b 0 * nestedSum Ns (fun ix => f a (b :: ix)) :=
          Finset.sum_comm
      _ = ∑ a ∈ Finset.range q, nestedSum (N :: Ns) (f a) := by
          simp [nestedSum]

theorem nestedSum_smul (Ns : List (List ℚ)) :
    ∀ (r : ℚ) (f : List ℕ → ℚ), nestedSum Ns (fun ix => r * f ix) = r * nestedSum Ns f := by
  induction Ns with
  | nil => intro r f; simp [nestedSum]
  | cons N Ns ih =>
    intro r f
    simp only [nestedSum]
    rw [Finset.mul_sum]
    refine Finset.sum_congr rfl fun b _ => ?_
    rw [ih r (fun ix => f (b :: ix))]
    ring

theorem fastVolVal_eq_nestedSum (Ns : List (List ℚ)) :
    ∀ c, fastVolVal Ns c = nestedSum Ns c := by
  induction Ns with
  | nil => intro c; rfl
  | cons N Ns ih =>
    intro c
    simp only [fastVolVal, nestedSum]
    rw [ih]
    rw [nestedSum_finsum Ns N.length (fun a ix => N.getD a 0 * c (a :: ix))]
    refine Finset.sum_congr rfl fun a _ => ?_
    exact nestedSum_smul Ns (N.getD a 0) (fun ix => c (a :: ix))

theorem nestedSum_append_singleton (N : List ℚ) :
    ∀ (Ns : List (List ℚ)) (c : List ℕ → ℚ),
      nestedSum (Ns ++ [N]) c =
        ∑ a ∈ Finset.range N.length, N.getD a 0 * nestedSum Ns (fun ix => c (ix ++ [a])) := by
  intro Ns
  induction Ns with
  | nil =>
    intro c
    simp [nestedSum]
  | cons M Ns ih =>
    intro c
    simp only [List.cons_append, nestedSum]
    calc (∑ b ∈ Finset.range M.length,
            M.getD b 0 * nestedSum (Ns ++ [N]) (fun ix => c (b :: ix)))
        = ∑ b ∈ Finset.range M.length, ∑ a ∈ Finset.range N.length,
            M.getD b 0 * (N.getD a 0 * nestedSum Ns (fun ix => c (b :: (ix ++ [a])))) := by
          refine Finset.sum_congr rfl fun b _ => ?_
          rw [ih (fun ix => c (b :: ix)), Finset.mul_sum]
      _ = ∑ a ∈ Finset.range N.length, ∑ b ∈ Finset.range M.length,
            M.getD b 0 * (N.getD a 0 * nestedSum Ns (fun ix => c (b :: (ix ++ [a])))) :=
          Finset.sum_comm
      _ = ∑ a ∈ Finset.range N.length,
            N.getD a 0 * ∑ b ∈ Finset.range M.length,
              M.getD b 0 * nestedSum Ns (fun ix => c (b :: ix ++ [a])) := by
          refine Finset.sum_congr rfl fun a _ => ?_
          rw [Finset.mul_sum]
          refine Finset.sum_congr rfl fun b _ => ?_
          simp only [List.cons_append]
          ring

theorem volAccum_eq_nestedSum_reverse (L : List (List ℚ)) :
    ∀ c, volAccum L c = nestedSum L.reverse c := by
  induction L with
  | nil => intro c; rfl
  | cons N L ih =>
    intro c
    simp only [volAccum, List.reverse_cons]
    rw [nestedSum_append_singleton N L.reverse c]
    refine Finset.sum_congr rfl fun a _ => ?_
    rw [ih (fun ix => c (ix ++ [a]))]

theorem volPtNum_eq_nestedSum (Ns : List (List ℚ)) (c : List ℕ → ℚ) :
    volPtNum Ns c = nestedSum Ns c := by
  unfold volPtNum
  rw [volAccum_eq_nestedSum_reverse, List.reverse_reverse]

theorem sum_range_getD (N : List ℚ) :
    ∑ a ∈ Finset.range N.length, N.getD a 0 = N.sum := by
  induction N with
  | nil => simp
  | cons x xs ih =>
    rw [List.length_cons, Finset.sum_range_succ']
    simp only [List.getD_cons_succ, List.getD_cons_zero, List.sum_cons, ih]
    ring

theorem nestedSum_const_one (Ns : List (List ℚ)) :
    nestedSum Ns (fun _ => 1) = (Ns.map List.sum).prod := by
  induction Ns with
  | nil => simp [nestedSum]
  | cons N Ns ih =>
    simp only [nestedSum, List.map_cons, List.prod_cons, ih, ← Finset.sum_mul,
      sum_range_getD]

/-- A per-dimension decoding configuration: degree, knot vector, parameter
value and its knot span, as computed by `FindSpan` in each dimension. -/
structure DimCfg where
  deg : ℕ
  knots : List ℚ
  u : ℚ
  span : ℕ

/-- The span hypotheses under which `FindSpan` hands `span` to the basis
function evaluation. -/
def ValidSpan (g : DimCfg) : Prop :=
  g.knots.Sorted (· ≤ ·) ∧ g.deg ≤ g.span ∧ g.span + g.deg < g.knots.length ∧
    g.knots.getD g.span 0 ≤ g.u ∧ g.u < g.knots.getD (g.span + 1) 0

/-- Basis values used in one dimension by both decoders (`OrigBasisFuns` in
`VolPt`, `FastBasisFuns` — the identical recurrence computed in place — in
`FastVolPt`). -/
def basisOf (g : DimCfg) : List ℚ := origBasisFuns g.deg g.knots g.u g.span

/-- C3: for a model with unit weights and a one-dimensional science variable,
`FastVolPt` and `VolPt` evaluated at the same parameter vector over the same
tensor product return the same decoded value: the n-mode-product
accumulation and the volume-iterator accumulation (including its rational
denominator) agree. -/
theorem fastVolPt_eq_volPt (cfgs : List DimCfg) (c : List ℕ → ℚ)
    (hv : ∀ g ∈ cfgs, ValidSpan g) :
    volPtOut (cfgs.map basisOf) c = fastVolPtOut (cfgs.map basisOf) c := by
  have hdenom : volPtNum (cfgs.map basisOf) (fun _ => 1) = 1 := by
    rw [volPtNum_eq_nestedSum, nestedSum_const_one]
    refine List.prod_eq_one ?_
    intro x hx
    simp only [List.map_map, List.mem_map] at hx
    obtain ⟨g, hg, hgx⟩ := hx
    obtain ⟨h1, h2, h3, h4, h5⟩ := hv g hg
    rw [← hgx]
    exact origBasisFuns_sum g.deg g.span g.knots g.u h1 h2 h3 h4 h5
  unfold volPtOut fastVolPtOut
  rw [hdenom, div_one, volPtNum_eq_nestedSum, fastVolVal_eq_nestedSum]

/-- Witness for C3: one-dimensional model, degree 1, knots `{0,0,1,1}`,
`u = 1/2`, constant control points 3. -/
theorem fastVolPt_eq_volPt_witness :
    volPtOut ([⟨1, [0, 0, 1, 1], 1/2, 1⟩].map basisOf) (fun _ => 3) =
      fastVolPtOut ([⟨1, [0, 0, 1, 1], 1/2, 1⟩].map basisOf) (fun _ => 3) :=
  fastVolPt_eq_volPt [⟨1, [0, 0, 1, 1], 1/2, 1⟩] (fun _ => 3) (by
    intro g hg
    simp only [List.mem_singleton] at hg
    subst hg
    exact ⟨by decide, by decide, by decide, by norm_num, by norm_num⟩)

/-! ## Curve knot insertion: `MFA_Data::NewCurveKnotIns` (mfa_data.hpp:1158-1235)

Boehm's algorithm (P&T algorithm 5.1 restricted to a single insertion).
Control-point rows are lists of coordinates; the affine update acts
coordinate-wise exactly as Eigen's row arithmetic does. -/

/-- Row form of `alpha * row(i+1) + (1 - alpha) * row(i)`. -/
def rowAffine (α : ℚ) (x y : List ℚ) : List ℚ :=
  List.zipWith (fun a b => α * a + (1 - α) * b) x y

/-- `alpha = (u - old_knots[L + i]) / (old_knots[i + span + 1] - old_knots[L + i])`
with `L = span - p + 1` (mfa_data.hpp:1220). -/
def insAlpha (oldKnots : List ℚ) (u : ℚ) (span p i : ℕ) : ℚ :=
  (u - oldKnots.getD (span - p + 1 + i) 0) /
    (oldKnots.getD (i + span + 1) 0 - oldKnots.getD (span - p + 1 + i) 0)

/-- The sequential temp-array loop of `NewCurveKnotIns`
(`for i = 0 .. p-1: temp[i] = alpha * temp[i+1] + (1-alpha) * temp[i]`):
`insSweep comb alpha init steps` is the contents of the temp array after
`steps` iterations, as a function of the array index. -/
def insSweep {β : Type} (comb : ℚ → β → β → β) (alpha : ℕ → ℚ) (init : ℕ → β) :
    ℕ → ℕ → β
  | 0 => init
  | i + 1 => fun r =>
    if r = i then
      comb (alpha i) (insSweep comb alpha init i (i + 1)) (insSweep comb alpha init i i)
    else
      insSweep comb alpha init i r

/-- Entries at or beyond the iteration counter have not been written yet. -/
theorem insSweep_untouched {β : Type} (comb : ℚ → β → β → β) (alpha : ℕ → ℚ)
    (init : ℕ → β) : ∀ i r, i ≤ r → insSweep comb alpha init i r = init r := by
  intro i
  induction i with
  | zero => intro r _; rfl
  | succ n ih =>
    intro r hr
    simp only [insSweep]
    rw [if_neg (by omega)]
    exact ih r (by omega)

/-- Closed form of the temp loop: because iteration `i` reads `temp[i+1]`
before iteration `i+1` writes it, every written entry is an affine
combination of the two original neighbouring control points. -/
theorem insSweep_closed {β : Type} (comb : ℚ → β → β → β) (alpha : ℕ → ℚ)
    (init : ℕ → β) : ∀ i r, r < i →
      insSweep comb alpha init i r = comb (alpha r) (init (r + 1)) (init r) := by
  intro i
  induction i with
  | zero => intro r hr; omega
  | succ n ih =>
    intro r hr
    simp only [insSweep]
    by_cases hrn : r = n
    · subst hrn
      rw [if_pos rfl, insSweep_untouched comb alpha init r (r + 1) (by omega),
        insSweep_untouched comb alpha init r r (le_refl r)]
    · rw [if_neg hrn]
      exact ih r (by omega)

/-- `MFA_Data::NewCurveKnotIns`: inserts the new knot value `u` (with level
`level`) into one curve.  `none` embeds the source's `exit(0)` on a
duplicate knot value (mfa_data.hpp:1179-1183).  The output control points
and weights are given by the disjoint index-range writes of the source
(unaltered prefix, shifted suffix, temp-array window), and the knot and
level vectors get `u`/`level` spliced in after position `span`. -/
def newCurveKnotIns (p : ℕ) (oldKnots : List ℚ) (oldLevels : List ℕ)
    (oldCtrl : List (List ℚ)) (oldW : List ℚ) (u : ℚ) (level : ℕ) :
    Option (List ℚ × List ℕ × List (List ℚ) × List ℚ) :=
  match findSpan p oldKnots u oldCtrl.length with
  | none => none
  | some span =>
    if oldKnots.getD span 0 = u then none
    else
      let L := span - p + 1
      let tc := insSweep rowAffine (insAlpha oldKnots u span p)
        (fun i => oldCtrl.getD (span - p + i) []) p
      let tw := insSweep (fun α a b => α * a + (1 - α) * b) (insAlpha oldKnots u span p)
        (fun i => oldW.getD (span - p + i) 0) p
      some (oldKnots.take (span + 1) ++ u :: oldKnots.drop (span + 1),
        oldLevels.take (span + 1) ++ level :: oldLevels.drop (span + 1),
        (List.range (oldCtrl.length + 1)).map (fun jj =>
          if jj + p ≤ span then oldCtrl.getD jj []
          else if jj = L then tc 0
          else if jj < span then tc (jj - L)
          else if jj = span then tc (p - 1)
          else oldCtrl.getD (jj - 1) []),
        (List.range (oldW.length + 1)).map (fun jj =>
          if jj + p ≤ span then oldW.getD jj 0
          else if jj = L then tw 0
          else if jj < span then tw (jj - L)
          else if jj = span then tw (p - 1)
          else oldW.getD (jj - 1) 0))

theorem getD_range_map {β : Type} (n : ℕ) (f : ℕ → β) (d : β) (jj : ℕ) (h : jj < n) :
    ((List.range n).map f).getD jj d = f jj := by
  have hlen : jj < ((List.range n).map f).length := by simpa using h
  rw [List.getD_eq_getElem _ _ hlen]
  simp

/-- C4: inserting a new knot `u` whose containing span is `span` (with
`L = span - p + 1`) into a curve of `n` control points yields `n + 1`
control points; the altered points are exactly the affine combinations
`alpha * old[L+j] + (1-alpha) * old[L+j-1]` with
`alpha = (u - knots[L+j]) / (knots[span+j+1] - knots[L+j])`, weights are
combined by the same affine combination, and all control points outside the
affected window are copied unchanged. -/
theorem newCurveKnotIns_spec (p : ℕ) (oldKnots : List ℚ) (oldLevels : List ℕ)
    (oldCtrl : List (List ℚ)) (oldW : List ℚ) (u : ℚ) (level : ℕ) (span : ℕ)
    (hp : 1 ≤ p) (hps : p ≤ span) (hspn : span < oldCtrl.length)
    (hw : oldW.length = oldCtrl.length)
    (hspan : findSpan p oldKnots u oldCtrl.length = some span)
    (hdup : oldKnots.getD span 0 ≠ u) :
    ∃ nk nl nc nw,
      newCurveKnotIns p oldKnots oldLevels oldCtrl oldW u level = some (nk, nl, nc, nw) ∧
      nc.length = oldCtrl.length + 1 ∧ nw.length = oldW.length + 1 ∧
      (∀ jj, jj + p ≤ span →
        nc.getD jj [] = oldCtrl.getD jj [] ∧ nw.getD jj 0 = oldW.getD jj 0) ∧
      (∀ jj, span < jj → jj ≤ oldCtrl.length →
        nc.getD jj [] = oldCtrl.getD (jj - 1) [] ∧ nw.getD jj 0 = oldW.getD (jj - 1) 0) ∧
      (∀ j, j ≤ p - 1 →
        nc.getD (span - p + 1 + j) [] =
          rowAffine (insAlpha oldKnots u span p j)
            (oldCtrl.getD (span - p + 1 + j) []) (oldCtrl.getD (span - p + j) []) ∧
        nw.getD (span - p + 1 + j) 0 =
          insAlpha oldKnots u span p j * oldW.getD (span - p + 1 + j) 0 +
            (1 - insAlpha oldKnots u span p j) * oldW.getD (span - p + j) 0) := by
  simp only [newCurveKnotIns, hspan, if_neg hdup]
  refine ⟨_, _, _, _, rfl, by simp, by simp [hw], ?_, ?_, ?_⟩
  · intro jj hjj
    rw [getD_range_map _ _ _ jj (by omega), getD_range_map _ _ _ jj (by omega)]
    rw [if_pos hjj, if_pos hjj]
    exact ⟨rfl, rfl⟩
  · intro jj h1 h2
    rw [getD_range_map _ _ _ jj (by omega), getD_range_map _ _ _ jj (by omega)]
    have c1 : ¬(jj + p ≤ span) := by omega
    have c2 : ¬(jj = span - p + 1) := by omega
    have c3 : ¬(jj < span) := by omega
    have c4 : ¬(jj = span) := by omega
    rw [if_neg c1, if_neg c1, if_neg c2, if_neg c2, if_neg c3, if_neg c3,
      if_neg c4, if_neg c4]
    exact ⟨rfl, rfl⟩
  · intro j hj
    have hidx : span - p + 1 + j < oldCtrl.length + 1 := by omega
    have hidxw : span - p + 1 + j < oldW.length + 1 := by omega
    rw [getD_range_map _ _ _ _ hidx, getD_range_map _ _ _ _ hidxw]
    have c1 : ¬(span - p + 1 + j + p ≤ span) := by omega
    rw [if_neg c1, if_neg c1]
    by_cases hj0 : j = 0
    · subst hj0
      have c2 : span - p + 1 + 0 = span - p + 1 := by omega
      rw [if_pos c2, if_pos c2]
      have hcl := insSweep_closed rowAffine (insAlpha oldKnots u span p)
        (fun i => oldCtrl.getD (span - p + i) []) p 0 (by omega)
      have hclw := insSweep_closed (fun α a b => α * a + (1 - α) * b)
        (insAlpha oldKnots u span p) (fun i => oldW.getD (span - p + i) 0) p 0 (by omega)
      simp only [hcl, hclw]
      exact ⟨trivial, trivial⟩
    · have c2 : ¬(span - p + 1 + j = span - p + 1) := by omega
      rw [if_neg c2, if_neg c2]
      by_cases hjlast : j = p - 1
      · subst hjlast
        have c3 : ¬(span - p + 1 + (p - 1) < span) := by omega
        have c4 : span - p + 1 + (p - 1) = span := by omega
        rw [if_neg c3, if_neg c3, if_pos c4, if_pos c4]
        have hcl := insSweep_closed rowAffine (insAlpha oldKnots u span p)
          (fun i => oldCtrl.getD (span - p + i) []) p (p - 1) (by omega)
        have hclw := insSweep_closed (fun α a b => α * a + (1 - α) * b)
          (insAlpha oldKnots u span p) (fun i => oldW.getD (span - p + i) 0) p (p - 1)
          (by omega)
        simp only [hcl, hclw]
        have e1 : span - p + (p - 1 + 1) = span - p + 1 + (p - 1) := by omega
        rw [e1]
        exact ⟨rfl, rfl⟩
      · have c3 : span - p + 1 + j < span := by omega
        rw [if_pos c3, if_pos c3]
        have hsub : span - p + 1 + j - (span - p + 1) = j := by omega
        rw [hsub]
        have hcl := insSweep_closed rowAffine (insAlpha oldKnots u span p)
          (fun i => oldCtrl.getD (span - p + i) []) p j (by omega)
        have hclw := insSweep_closed (fun α a b => α * a + (1 - α) * b)
          (insAlpha oldKnots u span p) (fun i => oldW.getD (span - p + i) 0) p j
          (by omega)
        simp only [hcl, hclw]
        have e1 : span - p + (j + 1) = span - p + 1 + j := by omega
        rw [e1]
        exact ⟨rfl, rfl⟩

/-- Witness for C4: degree 2, knots `{0,0,0,2,4,4,4}`, four control points,
insert `u = 1` in span 2. -/
theorem newCurveKnotIns_spec_witness :
    ∃ nk nl nc nw,
      newCurveKnotIns 2 [0, 0, 0, 2, 4, 4, 4] [0, 0, 0, 0, 0, 0, 0]
          [[0], [1], [2], [3]] [1, 1, 1, 1] 1 1 = some (nk, nl, nc, nw) ∧
      nc.length = ([[0], [1], [2], [3]] : List (List ℚ)).length + 1 ∧
      nw.length = ([1, 1, 1, 1] : List ℚ).length + 1 ∧
      (∀ jj, jj + 2 ≤ 2 →
        nc.getD jj [] = ([[0], [1], [2], [3]] : List (List ℚ)).getD jj [] ∧
        nw.getD jj 0 = ([1, 1, 1, 1] : List ℚ).getD jj 0) ∧
      (∀ jj, 2 < jj → jj ≤ ([[0], [1], [2], [3]] : List (List ℚ)).length →
        nc.getD jj [] = ([[0], [1], [2], [3]] : List (List ℚ)).getD (jj - 1) [] ∧
        nw.getD jj 0 = ([1, 1, 1, 1] : List ℚ).getD (jj - 1) 0) ∧
      (∀ j, j ≤ 2 - 1 →
        nc.getD (2 - 2 + 1 + j) [] =
          rowAffine (insAlpha [0, 0, 0, 2, 4, 4, 4] 1 2 2 j)
            (([[0], [1], [2], [3]] : List (List ℚ)).getD (2 - 2 + 1 + j) [])
            (([[0], [1], [2], [3]] : List (List ℚ)).getD (2 - 2 + j) []) ∧
        nw.getD (2 - 2 + 1 + j) 0 =
          insAlpha [0, 0, 0, 2, 4, 4, 4] 1 2 2 j *
              ([1, 1, 1, 1] : List ℚ).getD (2 - 2 + 1 + j) 0 +
            (1 - insAlpha [0, 0, 0, 2, 4, 4, 4] 1 2 2 j) *
              ([1, 1, 1, 1] : List ℚ).getD (2 - 2 + j) 0) :=
  newCurveKnotIns_spec 2 [0, 0, 0, 2, 4, 4, 4] [0, 0, 0, 0, 0, 0, 0]
    [[0], [1], [2], [3]] [1, 1, 1, 1] 1 1 2 (by decide) (by decide) (by decide)
    (by decide) (by decide) (by norm_num)

/-- C7 counterexample: the knot value `1` already exists, but only at level
1; the claim says an insertion at level 2 proceeds, yet the source rejects
it (the duplicate check compares knot values only, never levels). -/
theorem newCurveKnotIns_level_counterexample :
    (∀ j < 5, ([0, 0, 1, 0, 0] : List ℕ).getD j 0 = 2 →
      ([0, 0, 1, 2, 2] : List ℚ).getD j 0 ≠ 1) ∧
    newCurveKnotIns 1 [0, 0, 1, 2, 2] [0, 0, 1, 0, 0]
      [[0], [1], [2]] [1, 1, 1] 1 2 = none := by
  constructor
  · decide
  · decide

/-- C7 (amended): for a parameter strictly inside the knot range, the
insertion path rejects exactly when the new value equals an existing knot
value at any refinement level (knot levels are never consulted); values not
equal to any existing knot proceed. -/
theorem newCurveKnotIns_duplicate_policy (p : ℕ) (oldKnots : List ℚ)
    (oldLevels : List ℕ) (oldCtrl : List (List ℚ)) (oldW : List ℚ) (u : ℚ)
    (level : ℕ)
    (hsort : oldKnots.Sorted (· ≤ ·))
    (hlen : oldKnots.length = oldCtrl.length + p + 1)
    (hpn : p < oldCtrl.length)
    (hu1 : oldKnots.getD p 0 ≤ u)
    (hu2 : u < oldKnots.getD oldCtrl.length 0) :
    newCurveKnotIns p oldKnots oldLevels oldCtrl oldW u level = none ↔
      ∃ j < oldKnots.length, oldKnots.getD j 0 = u := by
  have hne : u ≠ oldKnots.getD oldCtrl.length 0 := ne_of_lt hu2
  obtain ⟨span, heq, h1, h2, h3, h4⟩ :=
    findSpanLoop_spec oldKnots u (oldCtrl.length + 1) p oldCtrl.length hpn
      (by omega) hu1 hu2
  have hspan : findSpan p oldKnots u oldCtrl.length = some span := by
    unfold findSpan
    rw [if_neg hne]
    exact heq
  constructor
  · intro hnone
    simp only [newCurveKnotIns, hspan] at hnone
    by_cases hdup : oldKnots.getD span 0 = u
    · exact ⟨span, by omega, hdup⟩
    · rw [if_neg hdup] at hnone
      exact absurd hnone (by simp)
  · rintro ⟨j, hjlen, hjval⟩
    have hdup : oldKnots.getD span 0 = u := by
      rcases le_or_lt j span with hj | hj
      · have hmono := sorted_getD_mono oldKnots hsort hj (by omega)
        rw [hjval] at hmono
        exact le_antisymm h3 hmono
      · exfalso
        have hjn : j < oldKnots.length := hjlen
        have hmono := sorted_getD_mono oldKnots hsort
          (show span + 1 ≤ j by omega) hjn
        rw [hjval] at hmono
        exact absurd (lt_of_lt_of_le h4 hmono) (lt_irrefl u)
    simp only [newCurveKnotIns, hspan, if_pos hdup]

/-- Witness for the amended C7 at a concrete input: inserting `u = 1`,
already present (at a different level), is rejected. -/
theorem newCurveKnotIns_duplicate_policy_witness :
    newCurveKnotIns 1 [0, 0, 1, 2, 2] [0, 0, 1, 0, 0]
        [[0], [1], [2]] [1, 1, 1] 1 2 = none ↔
      ∃ j < ([0, 0, 1, 2, 2] : List ℚ).length,
        ([0, 0, 1, 2, 2] : List ℚ).getD j 0 = 1 :=
  newCurveKnotIns_duplicate_policy 1 [0, 0, 1, 2, 2] [0, 0, 1, 0, 0]
    [[0], [1], [2]] [1, 1, 1] 1 2 (by decide) (by decide) (by decide)
    (by norm_num) (by norm_num)

/-! ## Volume knot insertion: `MFA_Data::NewKnotInsertion`
(mfa_data.hpp:967-1021) over `MFA_Data::NewVolKnotIns`
(mfa_data.hpp:1309-1465) -/

/-- Per-dimension action of `NewVolKnotIns` on the global knot and level
vectors: the curve insertion (`CurveKnotIns`, i.e. `NewCurveKnotIns`) is run
once per curve of dimension `k`, each run locating the span of `param(k)` by
`FindSpan(k, u, old_ctrl_pts.rows())` with `old_ctrl_pts.rows() = nctrl(k)`,
rejecting a duplicate knot value, and writing the same spliced knot and
level vectors for the dimension. -/
def volKnotInsDim (p : ℕ) (knots : List ℚ) (levels : List ℕ) (u : ℚ)
    (level : ℕ) (nctrlk : ℕ) : Option (List ℚ × List ℕ) :=
  match findSpan p knots u nctrlk with
  | none => none
  | some span =>
    if knots.getD span 0 = u then none
    else some (knots.take (span + 1) ++ u :: knots.drop (span + 1),
      levels.take (span + 1) ++ level :: levels.drop (span + 1))

/-- The `for k = 0 .. dom_dim-1` sweep of `NewVolKnotIns` as it affects the
per-dimension knot and level vectors. -/
def volKnotInsDims : List ℕ → List (List ℚ) → List (List ℕ) → List ℚ → ℕ →
    List ℕ → Option (List (List ℚ) × List (List ℕ))
  | [], [], [], [], _, [] => some ([], [])
  | p :: ps, ks :: kss, ls :: lss, u :: us, level, n :: ns =>
    match volKnotInsDim p ks ls u level n, volKnotInsDims ps kss lss us level ns with
    | some (k', l'), some (restK, restL) => some (k' :: restK, l' :: restL)
    | _, _ => none
  | _, _, _, _, _, _ => none

/-- State of one tensor product together with the global knot data that
`MFA_Data::NewKnotInsertion` reads and writes: per-dimension knots and knot
levels of the t-mesh, and the tensor's `nctrl_pts`, `knot_maxs` and the
number of control-point rows (`ctrl_pts.rows()`). -/
structure TensorIns where
  allKnots : List (List ℚ)
  allLevels : List (List ℕ)
  nctrl : List ℕ
  knotMaxs : List ℕ
  ctrlRows : ℕ
deriving DecidableEq

/-- `MFA_Data::NewKnotInsertion(param, tensor)`: runs `VolKnotIns`
(`NewVolKnotIns`) — which resizes the control grid to
`(nctrl_pts.array() + 1).prod()` rows and increments `nctrl_pts` in every
dimension — and then increments `tensor.knot_maxs[i]` for every dimension. -/
def newKnotInsertion (ps : List ℕ) (param : List ℚ) (level : ℕ)
    (st : TensorIns) : Option TensorIns :=
  match volKnotInsDims ps st.allKnots st.allLevels param level st.nctrl with
  | none => none
  | some (k', l') =>
    some { allKnots := k', allLevels := l',
           nctrl := st.nctrl.map (· + 1),
           knotMaxs := st.knotMaxs.map (· + 1),
           ctrlRows := (st.nctrl.map (· + 1)).prod }

theorem splice_length {β : Type} (l : List β) (x : β) (s : ℕ) :
    (l.take s ++ x :: l.drop s).length = l.length + 1 := by
  simp only [List.length_append, List.length_take, List.length_cons, List.length_drop]
  omega

theorem volKnotInsDim_length (p : ℕ) (knots : List ℚ) (levels : List ℕ)
    (u : ℚ) (level : ℕ) (nctrlk : ℕ) (k' : List ℚ) (l' : List ℕ)
    (h : volKnotInsDim p knots levels u level nctrlk = some (k', l')) :
    k'.length = knots.length + 1 ∧ l'.length = levels.length + 1 := by
  rcases hfs : findSpan p knots u nctrlk with _ | span
  · simp only [volKnotInsDim, hfs] at h
    exact absurd h (by simp)
  · simp only [volKnotInsDim, hfs] at h
    by_cases hdup : knots.getD span 0 = u
    · rw [if_pos hdup] at h
      exact absurd h (by simp)
    · rw [if_neg hdup] at h
      simp only [Option.some.injEq, Prod.mk.injEq] at h
      refine ⟨?_, ?_⟩
      · rw [← h.1]
        exact splice_length knots u (span + 1)
      · rw [← h.2]
        exact splice_length levels level (span + 1)

theorem volKnotInsDims_length :
    ∀ (ps : List ℕ) (kss : List (List ℚ)) (lss : List (List ℕ)) (us : List ℚ)
      (level : ℕ) (ns : List ℕ) (k' : List (List ℚ)) (l' : List (List ℕ)),
      volKnotInsDims ps kss lss us level ns = some (k', l') →
      k'.length = kss.length ∧ l'.length = lss.length ∧
      (∀ i < kss.length, (k'.getD i []).length = (kss.getD i []).length + 1) ∧
      (∀ i < lss.length, (l'.getD i []).length = (lss.getD i []).length + 1) := by
  intro ps
  induction ps with
  | nil =>
    intro kss lss us level ns k' l' h
    rcases kss with _ | ⟨k0, kss⟩
    · rcases lss with _ | ⟨l0, lss⟩
      · rcases us with _ | ⟨u0, us⟩
        · rcases ns with _ | ⟨n0, ns⟩
          · injection h with h1
            injection h1 with hk hl
            subst hk
            subst hl
            exact ⟨rfl, rfl, by intro i hi; simp at hi, by intro i hi; simp at hi⟩
          · exact Option.noConfusion h
        · exact Option.noConfusion h
      · exact Option.noConfusion h
    · exact Option.noConfusion h
  | cons p ps ih =>
    intro kss lss us level ns k' l' h
    rcases kss with _ | ⟨k0, kss⟩
    · exact Option.noConfusion h
    rcases lss with _ | ⟨l0, lss⟩
    · exact Option.noConfusion h
    rcases us with _ | ⟨u0, us⟩
    · exact Option.noConfusion h
    rcases ns with _ | ⟨n0, ns⟩
    · exact Option.noConfusion h
    rw [volKnotInsDims] at h
    rcases hd : volKnotInsDim p k0 l0 u0 level n0 with _ | ⟨kd, ld⟩ <;> rw [hd] at h
    · exact Option.noConfusion h
    rcases hr : volKnotInsDims ps kss lss us level ns with _ | ⟨kr, lr⟩ <;> rw [hr] at h
    · exact Option.noConfusion h
    injection h with h1
    injection h1 with hk hl
    obtain ⟨hdk, hdl⟩ := volKnotInsDim_length p k0 l0 u0 level n0 kd ld hd
    obtain ⟨ih1, ih2, ih3, ih4⟩ := ih kss lss us level ns kr lr hr
    subst hk hl
    refine ⟨by simp [ih1], by simp [ih2], ?_, ?_⟩
    · intro i hi
      cases i with
      | zero => simpa using hdk
      | succ i =>
        simp only [List.getD_cons_succ]
        exact ih3 i (by simpa using hi)
    · intro i hi
      cases i with
      | zero => simpa using hdl
      | succ i =>
        simp only [List.getD_cons_succ]
        exact ih4 i (by simpa using hi)

/-- C9: a single successful `NewKnotInsertion` call with a `d`-dimensional
parameter inserts one knot in every domain dimension simultaneously: each
dimension's knot vector grows by exactly one entry, `knot_maxs` is
incremented in every dimension, and the control grid is resized from the
product of `nctrl_pts[k]` rows to the product of `nctrl_pts[k] + 1` rows
(with `nctrl_pts` itself incremented in every dimension). -/
theorem newKnotInsertion_spec (ps : List ℕ) (param : List ℚ) (level : ℕ)
    (st st' : TensorIns)
    (h : newKnotInsertion ps param level st = some st')
    (hrows : st.ctrlRows = st.nctrl.prod) :
    (∀ k < st.allKnots.length,
      (st'.allKnots.getD k []).length = (st.allKnots.getD k []).length + 1) ∧
    (∀ k < st.allLevels.length,
      (st'.allLevels.getD k []).length = (st.allLevels.getD k []).length + 1) ∧
    st'.nctrl = st.nctrl.map (· + 1) ∧
    st'.knotMaxs = st.knotMaxs.map (· + 1) ∧
    st'.ctrlRows = (st.nctrl.map (· + 1)).prod := by
  unfold newKnotInsertion at h
  rcases hv : volKnotInsDims ps st.allKnots st.allLevels param level st.nctrl with
    _ | ⟨k', l'⟩ <;> rw [hv] at h
  · exact absurd h (by simp)
  · simp only [Option.some.injEq] at h
    obtain ⟨_, _, h3, h4⟩ :=
      volKnotInsDims_length ps st.allKnots st.allLevels param level st.nctrl k' l' hv
    subst h
    exact ⟨h3, h4, rfl, rfl, rfl⟩

/-- Witness for C9: two dimensions, degree 1 in each, inserting the knot
`(1, 1)`. -/
theorem newKnotInsertion_spec_witness :
    (∀ k < ([[0, 0, 2, 2], [0, 0, 2, 2]] : List (List ℚ)).length,
      ((TensorIns.mk [[0, 0, 1, 2, 2], [0, 0, 1, 2, 2]]
          [[0, 0, 1, 0, 0], [0, 0, 1, 0, 0]] [3, 3] [4, 4] 9).allKnots.getD k []).length =
        (([[0, 0, 2, 2], [0, 0, 2, 2]] : List (List ℚ)).getD k []).length + 1) ∧
    (∀ k < ([[0, 0, 0, 0], [0, 0, 0, 0]] : List (List ℕ)).length,
      ((TensorIns.mk [[0, 0, 1, 2, 2], [0, 0, 1, 2, 2]]
          [[0, 0, 1, 0, 0], [0, 0, 1, 0, 0]] [3, 3] [4, 4] 9).allLevels.getD k []).length =
        (([[0, 0, 0, 0], [0, 0, 0, 0]] : List (List ℕ)).getD k []).length + 1) ∧
    (TensorIns.mk [[0, 0, 1, 2, 2], [0, 0, 1, 2, 2]]
        [[0, 0, 1, 0, 0], [0, 0, 1, 0, 0]] [3, 3] [4, 4] 9).nctrl =
      ([2, 2] : List ℕ).map (· + 1) ∧
    (TensorIns.mk [[0, 0, 1, 2, 2], [0, 0, 1, 2, 2]]
        [[0, 0, 1, 0, 0], [0, 0, 1, 0, 0]] [3, 3] [4, 4] 9).knotMaxs =
      ([3, 3] : List ℕ).map (· + 1) ∧
    (TensorIns.mk [[0, 0, 1, 2, 2], [0, 0, 1, 2, 2]]
        [[0, 0, 1, 0, 0], [0, 0, 1, 0, 0]] [3, 3] [4, 4] 9).ctrlRows =
      (([2, 2] : List ℕ).map (· + 1)).prod :=
  newKnotInsertion_spec [1, 1] [1, 1] 1
    (TensorIns.mk [[0, 0, 2, 2], [0, 0, 2, 2]] [[0, 0, 0, 0], [0, 0, 0, 0]]
      [2, 2] [3, 3] 4)
    (TensorIns.mk [[0, 0, 1, 2, 2], [0, 0, 1, 2, 2]]
      [[0, 0, 1, 0, 0], [0, 0, 1, 0, 0]] [3, 3] [4, 4] 9)
    (by decide) (by decide)

/-! ## Precondition checks (decode.hpp:261-270, encode.hpp:739-763,
decode.hpp:1101-1112)

The source reports each violation with `fprintf(stderr, ...)` followed by
`exit(0)` or `exit(1)`, which terminates the process.  `ExitOrOk` embeds
this control flow: `procExit code` is a call to `exit(code)` and `ok` is
normal continuation. -/

/-- Outcome of a guard in the source: process termination via `exit(code)`,
or normal continuation.  No error value is ever propagated to a caller. -/
inductive ExitOrOk where
  | procExit (code : ℕ)
  | ok
deriving DecidableEq

/-- Guard at the top of `Decoder::Decoder` (decode.hpp:261-270): if any of
`p`, `all_knots`, `tensor_prods`, `tensor_prods[0].nctrl_pts`,
`tensor_prods[0].ctrl_pts` is empty (decoding before encoding), print a
diagnostic and `exit(0)`. -/
def decoderCtorCheck (psz nknotvecs ntensors nctrlsz nctrlpts : ℕ) : ExitOrOk :=
  if psz = 0 ∨ nknotvecs = 0 ∨ ntensors = 0 ∨ nctrlsz = 0 ∨ nctrlpts = 0 then
    .procExit 0
  else .ok

/-- Guard of `Encoder::Quants` (encode.hpp:739-763): `exit(1)` when
`p.size() != ndom_pts.size()` or when some dimension has
`nctrl_pts(i) <= p(i)`; a `nctrl_pts(i) > ndom_pts(i)` excess only warns. -/
def quantsCheck (p ndomPts nctrlPts : List ℕ) : ExitOrOk :=
  if p.length ≠ ndomPts.length then .procExit 1
  else if (List.range p.length).any (fun i => nctrlPts.getD i 0 ≤ p.getD i 0) then
    .procExit 1
  else .ok

/-- Guard of `Decoder::VolPt` (decode.hpp:1101-1112): a non-empty `derivs`
vector whose size differs from the number of domain dimensions prints a
diagnostic and `exit(0)`. -/
def volPtDerivsCheck (derivsSize domDim : ℕ) : ExitOrOk :=
  if derivsSize ≠ 0 ∧ derivsSize ≠ domDim then .procExit 0 else .ok

/-- C1 counterexample: each of the three cited precondition violations makes
the source call `exit` (embedded as `procExit`), so none of them is
surfaced to the caller as a typed failure and each terminates the process:
decoding before encoding (`tensor_prods` empty), `nctrl_pts[0] ≤ p[0]`, and
a `derivs` vector of the wrong size. -/
theorem precondition_exit_counterexample :
    decoderCtorCheck 1 1 0 1 1 = .procExit 0 ∧
    quantsCheck [2] [5] [2] = .procExit 1 ∧
    volPtDerivsCheck 1 2 = .procExit 0 := by
  exact ⟨rfl, rfl, rfl⟩

/-- C1 (amended): every precondition violation listed by the spec —
`nctrl_pts[k] ≤ p[k]`, a `derivs` vector whose size differs from the number
of domain dimensions, or constructing a `Decoder` before encoding has
populated the model — terminates the process via `exit` after printing a
diagnostic; no typed failure is returned to the caller. -/
theorem precondition_violations_exit :
    (∀ psz nknotvecs ntensors nctrlsz nctrlpts : ℕ,
      psz = 0 ∨ nknotvecs = 0 ∨ ntensors = 0 ∨ nctrlsz = 0 ∨ nctrlpts = 0 →
      decoderCtorCheck psz nknotvecs ntensors nctrlsz nctrlpts = .procExit 0) ∧
    (∀ p ndomPts nctrlPts : List ℕ, p.length = ndomPts.length →
      (∃ i < p.length, nctrlPts.getD i 0 ≤ p.getD i 0) →
      quantsCheck p ndomPts nctrlPts = .procExit 1) ∧
    (∀ derivsSize domDim : ℕ, derivsSize ≠ 0 → derivsSize ≠ domDim →
      volPtDerivsCheck derivsSize domDim = .procExit 0) := by
  refine ⟨?_, ?_, ?_⟩
  · intro psz nknotvecs ntensors nctrlsz nctrlpts hviol
    unfold decoderCtorCheck
    rw [if_pos hviol]
  · intro p ndomPts nctrlPts hlen hviol
    unfold quantsCheck
    rw [if_neg (by omega), if_pos]
    rw [List.any_eq_true]
    obtain ⟨i, hi, hle⟩ := hviol
    exact ⟨i, by simpa using hi, by simpa using hle⟩
  · intro derivsSize domDim h1 h2
    unfold volPtDerivsCheck
    rw [if_pos ⟨h1, h2⟩]

/-- Witness for the amended C1 at concrete inputs. -/
theorem precondition_violations_exit_witness :
    decoderCtorCheck 1 1 0 1 1 = .procExit 0 ∧
    quantsCheck [2] [5] [2] = .procExit 1 ∧
    volPtDerivsCheck 1 2 = .procExit 0 :=
  ⟨precondition_violations_exit.1 1 1 0 1 1 (by omega),
   precondition_violations_exit.2.1 [2] [5] [2] rfl ⟨0, by decide, by decide⟩,
   precondition_violations_exit.2.2 1 2 (by omega) (by omega)⟩

/-! ## Zero rational denominators (decode.hpp:704-709, decode.hpp:1184-1195,
encode.hpp:637-645) -/

/-- Final normalization of `Decoder::VolPt_tmesh` (decode.hpp:704-709): the
point is divided by the accumulated weighted-basis sum only when
`B_sum > 0`; otherwise a warning is printed and the point stays unscaled. -/
def volPtTmeshFinalize (outPt : List ℚ) (bsum : ℚ) : List ℚ :=
  if 0 < bsum then outPt.map (· / bsum) else outPt

/-- Final normalization of `Decoder::VolPt` (decode.hpp:1184-1195,
weigh-only-range build, no derivatives): `out_pt(last) /= denom` with
`denom = temp_denom(dom_dim - 1)` — applied unconditionally, with no zero
check and no diagnostic. -/
def volPtFinalize (outPt : List ℚ) (denom : ℚ) : List ℚ :=
  outPt.set (outPt.length - 1) (outPt.getD (outPt.length - 1) 0 / denom)

/-- Denominator fallback in `Encoder::RHS` (encode.hpp:637-645), active in
the `UNCLAMPED_KNOTS` configuration: a zero rational denominator for an
input point is replaced by 1. -/
def rhsDenomUnclamped (denomk : ℚ) : ℚ := if denomk = 0 then 1 else denomk

/-- C6 counterexample: the plain `VolPt` decode path divides by the
accumulated denominator unconditionally, so at denominator 0 the output does
not stay unscaled (the source computes `2.0 / 0.0 = inf` in IEEE arithmetic;
the exact embedding yields 0 — either way the point is changed and no
diagnostic is emitted). -/
theorem volPt_zero_denom_counterexample :
    volPtFinalize [2] 0 ≠ [2] := by
  simp [volPtFinalize]

/-- C6 (amended): a zero accumulated denominator leaves the decoded point
unscaled (with a diagnostic) only in the T-mesh decode path
(`VolPt_tmesh`); the plain `VolPt` path divides the last coordinate by the
denominator unconditionally; and during encoding the `UNCLAMPED_KNOTS`
rationalization substitutes `denom = 1` exactly when the denominator is
zero. -/
theorem zero_denominator_policy :
    (∀ (outPt : List ℚ) (bsum : ℚ), ¬0 < bsum → volPtTmeshFinalize outPt bsum = outPt) ∧
    (∀ (outPt : List ℚ) (denom : ℚ), volPtFinalize outPt denom =
      outPt.set (outPt.length - 1) (outPt.getD (outPt.length - 1) 0 / denom)) ∧
    rhsDenomUnclamped 0 = 1 ∧
    (∀ d : ℚ, d ≠ 0 → rhsDenomUnclamped d = d) := by
  refine ⟨?_, fun _ _ => rfl, rfl, ?_⟩
  · intro outPt bsum h
    unfold volPtTmeshFinalize
    rw [if_neg h]
  · intro d hd
    unfold rhsDenomUnclamped
    rw [if_neg hd]

/-- Witness for the amended C6 at concrete inputs. -/
theorem zero_denominator_policy_witness :
    volPtTmeshFinalize [5] 0 = [5] ∧
    volPtFinalize [2] 0 = ([2] : List ℚ).set 0 (([2] : List ℚ).getD 0 0 / 0) ∧
    rhsDenomUnclamped 0 = 1 ∧
    rhsDenomUnclamped 3 = 3 := by
  refine ⟨zero_denominator_policy.1 [5] 0 (by norm_num), ?_, zero_denominator_policy.2.2.1,
    zero_denominator_policy.2.2.2 3 (by norm_num)⟩
  have h := zero_denominator_policy.2.1 [2] 0
  simpa using h

/-! ## `MFA_Data` constructor defaults (mfa_data.hpp:83-109) -/

/-- Modelled from the spec: `Tmesh<T>::init_knots` is declared in
`tmesh.hpp`, which is not part of the source under verification.  Spec 4.A:
"`init_knots(nctrl_pts)`: creates per-dimension knot sequences of length
`nctrl_pts[k] + p[k] + 1` with level 0."  A knot is embedded as a
value/level pair; the values are assigned later by the knot-placement
routines. -/
def init_knots (p nctrl : List ℕ) : List (List (ℚ × ℕ)) :=
  List.zipWith (fun pk nk => List.replicate (nk + pk + 1) ((0 : ℚ), (0 : ℕ))) p nctrl

/-- Default applied by the `MFA_Data` constructor (mfa_data.hpp:99-105): a
size-0 `nctrl_pts` argument is replaced by the minimum `p(i) + 1` in every
dimension before `tmesh.init_knots` runs. -/
def mfaDataCtorNctrl (p nctrl : List ℕ) : List ℕ :=
  if nctrl.length = 0 then p.map (· + 1) else nctrl

/-- Knot vectors created by the `MFA_Data` constructor: `init_knots` applied
to the (possibly defaulted) control-point counts. -/
def mfaDataCtorKnots (p nctrl : List ℕ) : List (List (ℚ × ℕ)) :=
  init_knots p (mfaDataCtorNctrl p nctrl)

/-- C10: a size-0 `nctrl_pts` argument makes the `MFA_Data` constructor
default the number of control points in every dimension `i` to `p(i) + 1`
before initializing the knot vectors, so the initial knot vector in each
dimension has length `2 * (p(i) + 1)`. -/
theorem mfaDataCtor_default_knot_length (p : List ℕ) (k : ℕ) (hk : k < p.length) :
    mfaDataCtorNctrl p [] = p.map (· + 1) ∧
    ((mfaDataCtorKnots p []).getD k []).length = 2 * (p.getD k 0 + 1) := by
  refine ⟨rfl, ?_⟩
  unfold mfaDataCtorKnots mfaDataCtorNctrl init_knots
  simp only [List.length_nil]
  rw [if_pos trivial]
  have hlen : k < (List.zipWith
      (fun pk nk => List.replicate (nk + pk + 1) ((0 : ℚ), (0 : ℕ)))
      p (p.map (· + 1))).length := by
    simpa using hk
  rw [List.getD_eq_getElem _ _ hlen, List.getElem_zipWith]
  rw [List.getElem_map]
  rw [List.length_replicate]
  rw [List.getD_eq_getElem _ _ hk]
  omega

/-- Witness for C10: degrees `p = [2, 3]`, dimension 0. -/
theorem mfaDataCtor_default_knot_length_witness :
    mfaDataCtorNctrl [2, 3] [] = ([2, 3] : List ℕ).map (· + 1) ∧
    ((mfaDataCtorKnots [2, 3] []).getD 0 []).length =
      2 * (([2, 3] : List ℕ).getD 0 0 + 1) :=
  mfaDataCtor_default_knot_length [2, 3] 0 (by decide)

/-! ## Error-curve analysis: `Encoder::ErrorCurve` (encode.hpp:1066-1134)

The curve walk along dimension `k`: per-dimension input parameters
`params = mfa.params[k]`, knots `knots = mfa.tmesh.all_knots[k]`, degree
`deg = mfa.p[k]`.  The decoded curve point `cpt = decoder.CurvePt(...)` and
the input matrix `domain` enter the error computation as functions of the
point index and coordinate. -/

/-- Normalized per-coordinate maximum error of one curve point
(encode.hpp:1092-1098): `max_err` over coordinates `j` of
`|cpt(j) - domain(co + i*ds, min_dim + j)| / extents(min_dim + j)`, where a
size-0 `extents` argument defaults to all ones (encode.hpp:1081-1082). -/
def curveMaxErr (cpt dom : ℕ → ℕ → ℚ) (ext : List ℚ)
    (ncoords co ds mindim : ℕ) (i : ℕ) : ℚ :=
  (List.range ncoords).foldl (fun acc j =>
    let e := |cpt i j - dom (co + i * ds) (mindim + j)| /
      (if ext.length = 0 then 1 else ext.getD (mindim + j) 0)
    if acc < e then e else acc) 0

/-- Span-advance loop at the top of the point iteration
(encode.hpp:1086-1087): `while (knots[span+1] < 1.0 && knots[span+1] <=
params[i]) span++`, fuelled (the source loop is bounded by the knot vector
because the clamped knots end with 1.0). -/
def advanceSpan (knots : List ℚ) (x : ℚ) : ℕ → ℕ → ℕ
  | span, 0 => span
  | span, fuel + 1 =>
    if knots.getD (span + 1) 0 < 1 ∧ knots.getD (span + 1) 0 ≤ x then
      advanceSpan knots x (span + 1) fuel
    else span

/-- Downward scan for a parameter in the left half of the span
(encode.hpp:1107-1113): from index `i` downward while `params[j] ≥
knots[span]`, success when `params[j] < mid`.  (At index 0 the source loop
would decrement past the start of the vector; the walk hypotheses of the
theorems keep that case unreachable, and the embedding stops with
failure.) -/
def splitLeftScan (params : List ℚ) (lo mid : ℚ) : ℕ → Bool
  | 0 =>
    if params.getD 0 0 < lo then false
    else if params.getD 0 0 < mid then true
    else false
  | j + 1 =>
    if params.getD (j + 1) 0 < lo then false
    else if params.getD (j + 1) 0 < mid then true
    else splitLeftScan params lo mid j

/-- Upward scan for a parameter in the right half of the span
(encode.hpp:1114-1120): from index `i` upward while `params[j] <
knots[span+1]`, success when `params[j] ≥ mid`. -/
def splitRightScan (params : List ℚ) (hi mid : ℚ) (j : ℕ) : Bool :=
  if j < params.length then
    if ¬params.getD j 0 < hi then false
    else if mid ≤ params.getD j 0 then true
    else splitRightScan params hi mid (j + 1)
  else false
termination_by params.length - j
decreasing_by simp_wf; omega

/-- Loop state of `ErrorCurve`: the running span, the marked spans
(`err_spans`, a set in the source, kept duplicate-free by the membership
test) and the error count `nerr`. -/
structure ECState where
  span : ℕ
  errSpans : List ℕ
  nerr : ℕ
deriving DecidableEq

/-- One iteration of the `for i` loop of `ErrorCurve`
(encode.hpp:1084-1131): advance the span to the one containing
`params[i]`, and when the decoded error exceeds the limit, mark the span if
it is not yet marked and both half-span scans succeed, and always count the
point. -/
def errorCurveStep (knots params : List ℚ) (errf : ℕ → ℚ) (errLimit : ℚ)
    (st : ECState) (i : ℕ) : ECState :=
  let span := advanceSpan knots (params.getD i 0) st.span knots.length
  if errLimit < errf i then
    let mid := (knots.getD span 0 + knots.getD (span + 1) 0) / 2
    let spans :=
      if span ∈ st.errSpans then st.errSpans
      else if splitLeftScan params (knots.getD span 0) mid i &&
          splitRightScan params (knots.getD (span + 1) 0) mid i then
        st.errSpans ++ [span]
      else st.errSpans
    ⟨span, spans, st.nerr + 1⟩
  else ⟨span, st.errSpans, st.nerr⟩

/-- State of `ErrorCurve` after processing the first `n` input points,
starting from `span = p(k)`, no marked spans and `nerr = 0`. -/
def ecFold (deg : ℕ) (knots params : List ℚ) (errf : ℕ → ℚ) (errLimit : ℚ)
    (n : ℕ) : ECState :=
  (List.range n).foldl (errorCurveStep knots params errf errLimit) ⟨deg, [], 0⟩

/-- `Encoder::ErrorCurve`: the marked spans inserted into `err_spans` and
the returned count `nerr`, for one curve along the current dimension. -/
def errorCurve (deg : ℕ) (knots params : List ℚ) (errf : ℕ → ℚ)
    (errLimit : ℚ) : List ℕ × ℕ :=
  let final := ecFold deg knots params errf errLimit params.length
  (final.errSpans, final.nerr)

/-- The span value held by the walk while processing point `i`. -/
def spanTrack (deg : ℕ) (knots params : List ℚ) : ℕ → ℕ
  | 0 => advanceSpan knots (params.getD 0 0) deg knots.length
  | i + 1 => advanceSpan knots (params.getD (i + 1) 0)
      (spanTrack deg knots params i) knots.length

theorem ecFold_succ (deg : ℕ) (knots params : List ℚ) (errf : ℕ → ℚ)
    (errLimit : ℚ) (n : ℕ) :
    ecFold deg knots params errf errLimit (n + 1) =
      errorCurveStep knots params errf errLimit
        (ecFold deg knots params errf errLimit n) n := by
  unfold ecFold
  rw [List.range_succ, List.foldl_append]
  rfl

theorem errorCurveStep_span (knots params : List ℚ) (errf : ℕ → ℚ)
    (errLimit : ℚ) (st : ECState) (i : ℕ) :
    (errorCurveStep knots params errf errLimit st i).span =
      advanceSpan knots (params.getD i 0) st.span knots.length := by
  unfold errorCurveStep
  by_cases h : errLimit < errf i
  · rw [if_pos h]
  · rw [if_neg h]

theorem ecFold_span (deg : ℕ) (knots params : List ℚ) (errf : ℕ → ℚ)
    (errLimit : ℚ) : ∀ n : ℕ,
    (ecFold deg knots params errf errLimit (n + 1)).span =
      spanTrack deg knots params n := by
  intro n
  induction n with
  | zero =>
    rw [ecFold_succ, errorCurveStep_span]
    rfl
  | succ n ih =>
    rw [ecFold_succ, errorCurveStep_span, ih]
    rfl

theorem errorCurveStep_nerr (knots params : List ℚ) (errf : ℕ → ℚ)
    (errLimit : ℚ) (st : ECState) (i : ℕ) :
    (errorCurveStep knots params errf errLimit st i).nerr =
      if errLimit < errf i then st.nerr + 1 else st.nerr := by
  unfold errorCurveStep
  by_cases h : errLimit < errf i
  · rw [if_pos h, if_pos h]
  · rw [if_neg h, if_neg h]

theorem ecFold_nerr (deg : ℕ) (knots params : List ℚ) (errf : ℕ → ℚ)
    (errLimit : ℚ) : ∀ n : ℕ,
    (ecFold deg knots params errf errLimit n).nerr =
      ((List.range n).filter (fun i => decide (errLimit < errf i))).length := by
  intro n
  induction n with
  | zero => rfl
  | succ n ih =>
    rw [ecFold_succ, errorCurveStep_nerr, List.range_succ, List.filter_append, ih]
    by_cases h : errLimit < errf n
    · simp [h]
    · simp [h]

/-- The downward scan succeeds exactly when some parameter at index `≤ i`
lies in `[lo, mid)`. -/
theorem splitLeftScan_iff (params : List ℚ) (lo mid : ℚ)
    (hsort : params.Sorted (· ≤ ·)) :
    ∀ i, i < params.length →
      (splitLeftScan params lo mid i = true ↔
        ∃ jj ≤ i, lo ≤ params.getD jj 0 ∧ params.getD jj 0 < mid) := by
  intro i
  induction i with
  | zero =>
    intro hi
    unfold splitLeftScan
    by_cases h1 : params.getD 0 0 < lo
    · rw [if_pos h1]
      constructor
      · intro h; exact absurd h (by simp)
      · rintro ⟨jj, hjj, hlo, _⟩
        interval_cases jj
        exact absurd hlo (not_le.mpr h1)
    · rw [if_neg h1]
      by_cases h2 : params.getD 0 0 < mid
      · rw [if_pos h2]
        exact ⟨fun _ => ⟨0, le_refl 0, not_lt.mp h1, h2⟩, fun _ => rfl⟩
      · rw [if_neg h2]
        constructor
        · intro h; exact absurd h (by simp)
        · rintro ⟨jj, hjj, _, hmid⟩
          interval_cases jj
          exact absurd hmid h2
  | succ n ih =>
    intro hi
    unfold splitLeftScan
    by_cases h1 : params.getD (n + 1) 0 < lo
    · rw [if_pos h1]
      constructor
      · intro h; exact absurd h (by simp)
      · rintro ⟨jj, hjj, hlo, _⟩
        have hmono : params.getD jj 0 ≤ params.getD (n + 1) 0 :=
          sorted_getD_mono params hsort hjj hi
        exact absurd (lt_of_le_of_lt (le_trans hlo hmono) h1) (lt_irrefl lo)
    · rw [if_neg h1]
      by_cases h2 : params.getD (n + 1) 0 < mid
      · rw [if_pos h2]
        exact ⟨fun _ => ⟨n + 1, le_refl _, not_lt.mp h1, h2⟩, fun _ => rfl⟩
      · rw [if_neg h2]
        rw [ih (by omega)]
        constructor
        · rintro ⟨jj, hjj, hlo, hmid⟩
          exact ⟨jj, by omega, hlo, hmid⟩
        · rintro ⟨jj, hjj, hlo, hmid⟩
          refine ⟨jj, ?_, hlo, hmid⟩
          rcases Nat.lt_or_ge jj (n + 1) with h | h
          · omega
          · have hjje : jj = n + 1 := by omega
            rw [hjje] at hmid
            exact absurd hmid h2

/-- The upward scan succeeds exactly when some parameter at index `≥ i`
lies in `[mid, hi)`. -/
theorem splitRightScan_iff (params : List ℚ) (hi mid : ℚ)
    (hsort : params.Sorted (· ≤ ·)) :
    ∀ (d i : ℕ), params.length - i ≤ d →
      (splitRightScan params hi mid i = true ↔
        ∃ jj, i ≤ jj ∧ jj < params.length ∧ mid ≤ params.getD jj 0 ∧
          params.getD jj 0 < hi) := by
  intro d
  induction d with
  | zero =>
    intro i hd
    have hge : ¬i < params.length := by omega
    rw [splitRightScan, if_neg hge]
    constructor
    · intro h; exact absurd h (by simp)
    · rintro ⟨jj, h1, h2, _, _⟩
      omega
  | succ d ihd =>
    intro i hd
    by_cases hlt : i < params.length
    · rw [splitRightScan, if_pos hlt]
      by_cases h1 : ¬params.getD i 0 < hi
      · rw [if_pos h1]
        constructor
        · intro h; exact absurd h (by simp)
        · rintro ⟨jj, hjj1, hjj2, _, hjj4⟩
          have hmono : params.getD i 0 ≤ params.getD jj 0 :=
            sorted_getD_mono params hsort hjj1 hjj2
          exact absurd (lt_of_le_of_lt hmono hjj4) h1
      · rw [if_neg h1]
        by_cases h2 : mid ≤ params.getD i 0
        · rw [if_pos h2]
          exact ⟨fun _ => ⟨i, le_refl i, hlt, h2, not_not.mp h1⟩, fun _ => rfl⟩
        · rw [if_neg h2]
          rw [ihd (i + 1) (by omega)]
          constructor
          · rintro ⟨jj, hjj1, hjj2, hjj3, hjj4⟩
            exact ⟨jj, by omega, hjj2, hjj3, hjj4⟩
          · rintro ⟨jj, hjj1, hjj2, hjj3, hjj4⟩
            refine ⟨jj, ?_, hjj2, hjj3, hjj4⟩
            rcases Nat.eq_or_lt_of_le hjj1 with rfl | h
            · exact absurd hjj3 h2
            · omega
    · rw [splitRightScan, if_neg hlt]
      constructor
      · intro h; exact absurd h (by simp)
      · rintro ⟨jj, h1, h2, _, _⟩
        omega

/-- The span-advance loop preserves `knots[span] ≤ x`. -/
theorem advanceSpan_le (knots : List ℚ) (x : ℚ) :
    ∀ (fuel span : ℕ), knots.getD span 0 ≤ x →
      knots.getD (advanceSpan knots x span fuel) 0 ≤ x := by
  intro fuel
  induction fuel with
  | zero => intro span h; exact h
  | succ n ih =>
    intro span h
    unfold advanceSpan
    by_cases hc : knots.getD (span + 1) 0 < 1 ∧ knots.getD (span + 1) 0 ≤ x
    · rw [if_pos hc]
      exact ih (span + 1) hc.2
    · rw [if_neg hc]
      exact h

/-- With a knot of value `≥ 1` ahead of the span, the advance loop stops
below it with its exit condition established (the source loop never runs
past the clamped tail of the knot vector). -/
theorem advanceSpan_exit (knots : List ℚ) (x : ℚ) (t : ℕ)
    (ht : 1 ≤ knots.getD t 0) :
    ∀ (fuel span : ℕ), span < t → t ≤ span + fuel →
      advanceSpan knots x span fuel < t ∧
      ¬(knots.getD (advanceSpan knots x span fuel + 1) 0 < 1 ∧
        knots.getD (advanceSpan knots x span fuel + 1) 0 ≤ x) := by
  intro fuel
  induction fuel with
  | zero =>
    intro span h1 h2
    omega
  | succ n ih =>
    intro span h1 h2
    unfold advanceSpan
    by_cases hc : knots.getD (span + 1) 0 < 1 ∧ knots.getD (span + 1) 0 ≤ x
    · rw [if_pos hc]
      have hne : span + 1 ≠ t := by
        intro he
        rw [he] at hc
        exact absurd hc.1 (not_lt.mpr ht)
      exact ih (span + 1) (by omega) (by omega)
    · rw [if_neg hc]
      exact ⟨h1, hc⟩

/-- Walk invariant: the tracked span's left knot never exceeds the current
parameter. -/
theorem spanTrack_lo (deg : ℕ) (knots params : List ℚ)
    (hpsort : params.Sorted (· ≤ ·))
    (hp0 : knots.getD deg 0 ≤ params.getD 0 0) :
    ∀ i, i < params.length →
      knots.getD (spanTrack deg knots params i) 0 ≤ params.getD i 0 := by
  intro i
  induction i with
  | zero =>
    intro _
    exact advanceSpan_le knots _ _ deg hp0
  | succ n ih =>
    intro hi
    have hmono : params.getD n 0 ≤ params.getD (n + 1) 0 :=
      sorted_getD_mono params hpsort (by omega) hi
    exact advanceSpan_le knots _ _ _ (le_trans (ih (by omega)) hmono)

/-- Walk invariant: with a clamped knot of value `≥ 1` beyond the degree,
the tracked span stays below it and satisfies the loop's exit condition, so
`params[i]` lies in `[knots[span], knots[span+1])` up to the `1.0` edge. -/
theorem spanTrack_exit (deg : ℕ) (knots params : List ℚ) (t : ℕ)
    (ht1 : 1 ≤ knots.getD t 0) (ht2 : deg < t) (ht3 : t ≤ knots.length) :
    ∀ i, spanTrack deg knots params i < t ∧
      ¬(knots.getD (spanTrack deg knots params i + 1) 0 < 1 ∧
        knots.getD (spanTrack deg knots params i + 1) 0 ≤ params.getD i 0) := by
  intro i
  induction i with
  | zero =>
    exact advanceSpan_exit knots _ t ht1 knots.length deg ht2 (by omega)
  | succ n ih =>
    exact advanceSpan_exit knots _ t ht1 knots.length
      (spanTrack deg knots params n) ih.1 (by omega)

/-- Marked spans after `n` points: a span is marked exactly when some
already-processed point has excessive error while the walk was in that span
and both half-span scans from that point succeed. -/
theorem ecFold_errSpans (deg : ℕ) (knots params : List ℚ) (errf : ℕ → ℚ)
    (errLimit : ℚ) :
    ∀ n s, s ∈ (ecFold deg knots params errf errLimit n).errSpans ↔
      ∃ i < n, spanTrack deg knots params i = s ∧ errLimit < errf i ∧
        (splitLeftScan params (knots.getD s 0)
            ((knots.getD s 0 + knots.getD (s + 1) 0) / 2) i &&
          splitRightScan params (knots.getD (s + 1) 0)
            ((knots.getD s 0 + knots.getD (s + 1) 0) / 2) i) = true := by
  intro n
  induction n with
  | zero =>
    intro s
    constructor
    · intro h
      exact absurd h (by simp [ecFold])
    · rintro ⟨i, hi, _⟩
      omega
  | succ n ih =>
    intro s
    rw [ecFold_succ]
    have hsp : advanceSpan knots (params.getD n 0)
        (ecFold deg knots params errf errLimit n).span knots.length =
        spanTrack deg knots params n := by
      cases n with
      | zero => rfl
      | succ m =>
        rw [ecFold_span deg knots params errf errLimit m]
        rfl
    simp only [errorCurveStep]
    rw [hsp]
    by_cases herr : errLimit < errf n
    · rw [if_pos herr]
      by_cases hmem : spanTrack deg knots params n ∈
          (ecFold deg knots params errf errLimit n).errSpans
      · rw [if_pos hmem]
        show s ∈ (ecFold deg knots params errf errLimit n).errSpans ↔ _
        rw [ih s]
        constructor
        · rintro ⟨i, hi, h1, h2, h3⟩
          exact ⟨i, by omega, h1, h2, h3⟩
        · rintro ⟨i, hi, h1, h2, h3⟩
          rcases Nat.lt_or_ge i n with h | h
          · exact ⟨i, h, h1, h2, h3⟩
          · have hin : i = n := by omega
            subst hin
            subst h1
            exact (ih _).mp hmem
      · rw [if_neg hmem]
        by_cases hscan : (splitLeftScan params
            (knots.getD (spanTrack deg knots params n) 0)
            ((knots.getD (spanTrack deg knots params n) 0 +
              knots.getD (spanTrack deg knots params n + 1) 0) / 2) n &&
          splitRightScan params (knots.getD (spanTrack deg knots params n + 1) 0)
            ((knots.getD (spanTrack deg knots params n) 0 +
              knots.getD (spanTrack deg knots params n + 1) 0) / 2) n) = true
        · rw [if_pos hscan]
          show s ∈ (ecFold deg knots params errf errLimit n).errSpans ++
            [spanTrack deg knots params n] ↔ _
          rw [List.mem_append, List.mem_singleton, ih s]
          constructor
          · rintro (⟨i, hi, h1, h2, h3⟩ | hs)
            · exact ⟨i, by omega, h1, h2, h3⟩
            · subst hs
              exact ⟨n, by omega, rfl, herr, hscan⟩
          · rintro ⟨i, hi, h1, h2, h3⟩
            rcases Nat.lt_or_ge i n with h | h
            · exact Or.inl ⟨i, h, h1, h2, h3⟩
            · have hin : i = n := by omega
              subst hin
              exact Or.inr h1.symm
        · rw [if_neg hscan]
          show s ∈ (ecFold deg knots params errf errLimit n).errSpans ↔ _
          rw [ih s]
          constructor
          · rintro ⟨i, hi, h1, h2, h3⟩
            exact ⟨i, by omega, h1, h2, h3⟩
          · rintro ⟨i, hi, h1, h2, h3⟩
            rcases Nat.lt_or_ge i n with h | h
            · exact ⟨i, h, h1, h2, h3⟩
            · have hin : i = n := by omega
              subst hin
              subst h1
              exact absurd h3 hscan
    · rw [if_neg herr]
      show s ∈ (ecFold deg knots params errf errLimit n).errSpans ↔ _
      rw [ih s]
      constructor
      · rintro ⟨i, hi, h1, h2, h3⟩
        exact ⟨i, by omega, h1, h2, h3⟩
      · rintro ⟨i, hi, h1, h2, h3⟩
        rcases Nat.lt_or_ge i n with h | h
        · exact ⟨i, h, h1, h2, h3⟩
        · have hin : i = n := by omega
          subst hin
          exact absurd h2 herr

/-- With the current parameter at or beyond the span's left knot, the
bounded downward scan finds a left-half parameter exactly when one exists
anywhere in the curve. -/
theorem left_scan_global (params : List ℚ) (lo mid : ℚ)
    (hsort : params.Sorted (· ≤ ·)) (i : ℕ) (hi : i < params.length)
    (hloi : lo ≤ params.getD i 0) :
    (∃ jj ≤ i, lo ≤ params.getD jj 0 ∧ params.getD jj 0 < mid) ↔
      ∃ jj < params.length, lo ≤ params.getD jj 0 ∧ params.getD jj 0 < mid := by
  constructor
  · rintro ⟨jj, h1, h2, h3⟩
    exact ⟨jj, by omega, h2, h3⟩
  · rintro ⟨jj, h1, h2, h3⟩
    by_cases hcase : params.getD i 0 < mid
    · exact ⟨i, le_refl i, hloi, hcase⟩
    · refine ⟨jj, ?_, h2, h3⟩
      by_contra hgt
      push_neg at hgt
      have hmono := sorted_getD_mono params hsort (le_of_lt hgt) h1
      exact hcase (lt_of_le_of_lt hmono h3)

/-- C8 counterexample: degree 1, knots `{0,0,1,1}` (single span `[0,1)` with
midpoint `1/2`), parameters `{0, 1/4, 3/4, 1}`, and a decoded error that
exceeds the limit only at the last point (parameter `1`).  The erring point
lies in span 1, the left half `[0, 1/2)` contains the parameters `0, 1/4`
and the right half `[1/2, 1)` contains `3/4`, so the claim requires span 1
to be marked; but the source's right-half scan only searches forward from
the erring point (`params[3] = 1` fails `params[j] < knots[span+1]`
immediately), so the span is not marked.  The returned count still includes
the point. -/
theorem errorCurve_mark_counterexample :
    (1/2 : ℚ) <
      curveMaxErr (fun i _ => if i = 3 then 1 else 0) (fun _ _ => 0) [] 1 0 1 0 3 ∧
    spanTrack 1 [0, 0, 1, 1] [0, 1/4, 3/4, 1] 3 = 1 ∧
    (∃ jj < ([0, 1/4, 3/4, 1] : List ℚ).length,
      ([0, 0, 1, 1] : List ℚ).getD 1 0 ≤ ([0, 1/4, 3/4, 1] : List ℚ).getD jj 0 ∧
      ([0, 1/4, 3/4, 1] : List ℚ).getD jj 0 <
        (([0, 0, 1, 1] : List ℚ).getD 1 0 + ([0, 0, 1, 1] : List ℚ).getD 2 0) / 2) ∧
    (∃ jj < ([0, 1/4, 3/4, 1] : List ℚ).length,
      (([0, 0, 1, 1] : List ℚ).getD 1 0 + ([0, 0, 1, 1] : List ℚ).getD 2 0) / 2 ≤
        ([0, 1/4, 3/4, 1] : List ℚ).getD jj 0 ∧
      ([0, 1/4, 3/4, 1] : List ℚ).getD jj 0 < ([0, 0, 1, 1] : List ℚ).getD 2 0) ∧
    1 ∉ (errorCurve 1 [0, 0, 1, 1] [0, 1/4, 3/4, 1]
      (curveMaxErr (fun i _ => if i = 3 then 1 else 0) (fun _ _ => 0) [] 1 0 1 0)
      (1/2)).1 ∧
    (errorCurve 1 [0, 0, 1, 1] [0, 1/4, 3/4, 1]
      (curveMaxErr (fun i _ => if i = 3 then 1 else 0) (fun _ _ => 0) [] 1 0 1 0)
      (1/2)).2 = 1 := by
  have herr : ∀ i, curveMaxErr (fun i _ => if i = 3 then (1 : ℚ) else 0)
      (fun _ _ => 0) [] 1 0 1 0 i = if i = 3 then 1 else 0 := by
    intro i
    by_cases h : i = 3 <;> norm_num [curveMaxErr, h, List.range_succ]
  have hstep0 : errorCurveStep [0, 0, 1, 1] [0, 1/4, 3/4, 1]
      (curveMaxErr (fun i _ => if i = 3 then 1 else 0) (fun _ _ => 0) [] 1 0 1 0)
      (1/2) ⟨1, [], 0⟩ 0 = ⟨1, [], 0⟩ := by
    norm_num [errorCurveStep, advanceSpan, herr]
  have hstep1 : errorCurveStep [0, 0, 1, 1] [0, 1/4, 3/4, 1]
      (curveMaxErr (fun i _ => if i = 3 then 1 else 0) (fun _ _ => 0) [] 1 0 1 0)
      (1/2) ⟨1, [], 0⟩ 1 = ⟨1, [], 0⟩ := by
    norm_num [errorCurveStep, advanceSpan, herr]
  have hstep2 : errorCurveStep [0, 0, 1, 1] [0, 1/4, 3/4, 1]
      (curveMaxErr (fun i _ => if i = 3 then 1 else 0) (fun _ _ => 0) [] 1 0 1 0)
      (1/2) ⟨1, [], 0⟩ 2 = ⟨1, [], 0⟩ := by
    norm_num [errorCurveStep, advanceSpan, herr]
  have hright : splitRightScan [0, 1/4, 3/4, 1] 1 (1/2) 3 = false := by
    rw [splitRightScan]
    norm_num
  have hstep3 : errorCurveStep [0, 0, 1, 1] [0, 1/4, 3/4, 1]
      (curveMaxErr (fun i _ => if i = 3 then 1 else 0) (fun _ _ => 0) [] 1 0 1 0)
      (1/2) ⟨1, [], 0⟩ 3 = ⟨1, [], 1⟩ := by
    norm_num [errorCurveStep, advanceSpan, splitLeftScan, herr, hright]
  have hfold : ecFold 1 [0, 0, 1, 1] [0, 1/4, 3/4, 1]
      (curveMaxErr (fun i _ => if i = 3 then 1 else 0) (fun _ _ => 0) [] 1 0 1 0)
      (1/2) 4 = ⟨1, [], 1⟩ := by
    rw [show (4 : ℕ) = 3 + 1 from rfl, ecFold_succ,
      show (3 : ℕ) = 2 + 1 from rfl, ecFold_succ,
      show (2 : ℕ) = 1 + 1 from rfl, ecFold_succ,
      show (1 : ℕ) = 0 + 1 from rfl, ecFold_succ]
    rw [show ecFold 1 [0, 0, 1, 1] [0, 1/4, 3/4, 1]
      (curveMaxErr (fun i _ => if i = 3 then 1 else 0) (fun _ _ => 0) [] 1 0 1 0)
      (1/2) 0 = ⟨1, [], 0⟩ from rfl]
    rw [hstep0, hstep1, hstep2, hstep3]
  refine ⟨by rw [herr]; norm_num, by norm_num [spanTrack, advanceSpan],
    ⟨1, by norm_num, by norm_num, by norm_num⟩,
    ⟨2, by norm_num, by norm_num, by norm_num⟩, ?_, ?_⟩
  · show (1 : ℕ) ∉ (ecFold 1 [0, 0, 1, 1] [0, 1/4, 3/4, 1] _ _
      ([0, 1/4, 3/4, 1] : List ℚ).length).errSpans
    rw [show ([0, 1/4, 3/4, 1] : List ℚ).length = 4 from rfl, hfold]
    simp
  · show (ecFold 1 [0, 0, 1, 1] [0, 1/4, 3/4, 1] _ _
      ([0, 1/4, 3/4, 1] : List ℚ).length).nerr = 1
    rw [show ([0, 1/4, 3/4, 1] : List ℚ).length = 4 from rfl, hfold]

/-- C8 (amended): for every curve along dimension `k`, `ErrorCurve` marks a
knot span in `err_spans` if and only if some input point walked in that span
has normalized per-coordinate error exceeding `err_limit`, the left half of
the span contains at least one input parameter, and the right half of the
span contains at least one input parameter at or after that erring point
(the downward left scan sees the whole curve, but the upward right scan only
starts at the erring point); the walk's span contains each point's
parameter up to the `1.0` edge; and the return value counts every input
point whose error exceeds the limit, including points lying in spans that
were not marked. -/
theorem errorCurve_marking (deg : ℕ) (knots params : List ℚ)
    (cpt dom : ℕ → ℕ → ℚ) (ext : List ℚ) (ncoords co ds mindim : ℕ)
    (errLimit : ℚ) (t : ℕ)
    (hpsort : params.Sorted (· ≤ ·))
    (hp0 : knots.getD deg 0 ≤ params.getD 0 0)
    (ht1 : 1 ≤ knots.getD t 0) (ht2 : deg < t) (ht3 : t ≤ knots.length) :
    (errorCurve deg knots params
        (curveMaxErr cpt dom ext ncoords co ds mindim) errLimit).2 =
      ((List.range params.length).filter (fun i =>
        decide (errLimit < curveMaxErr cpt dom ext ncoords co ds mindim i))).length ∧
    (∀ i < params.length,
      knots.getD (spanTrack deg knots params i) 0 ≤ params.getD i 0 ∧
      (1 ≤ knots.getD (spanTrack deg knots params i + 1) 0 ∨
        params.getD i 0 < knots.getD (spanTrack deg knots params i + 1) 0)) ∧
    (∀ s, s ∈ (errorCurve deg knots params
        (curveMaxErr cpt dom ext ncoords co ds mindim) errLimit).1 ↔
      ∃ i < params.length, spanTrack deg knots params i = s ∧
        errLimit < curveMaxErr cpt dom ext ncoords co ds mindim i ∧
        (∃ jj < params.length, knots.getD s 0 ≤ params.getD jj 0 ∧
          params.getD jj 0 < (knots.getD s 0 + knots.getD (s + 1) 0) / 2) ∧
        (∃ jj, i ≤ jj ∧ jj < params.length ∧
          (knots.getD s 0 + knots.getD (s + 1) 0) / 2 ≤ params.getD jj 0 ∧
          params.getD jj 0 < knots.getD (s + 1) 0)) := by
  refine ⟨?_, ?_, ?_⟩
  · show (ecFold deg knots params _ errLimit params.length).nerr = _
    exact ecFold_nerr deg knots params _ errLimit params.length
  · intro i hi
    refine ⟨spanTrack_lo deg knots params hpsort hp0 i hi, ?_⟩
    have hx := (spanTrack_exit deg knots params t ht1 ht2 ht3 i).2
    push_neg at hx
    by_cases h1 : 1 ≤ knots.getD (spanTrack deg knots params i + 1) 0
    · exact Or.inl h1
    · exact Or.inr (hx (not_le.mp h1))
  · intro s
    show s ∈ (ecFold deg knots params _ errLimit params.length).errSpans ↔ _
    rw [ecFold_errSpans]
    constructor
    · rintro ⟨i, hi, htr, herr2, hscan⟩
      rw [Bool.and_eq_true] at hscan
      obtain ⟨hL, hR⟩ := hscan
      have hloi : knots.getD s 0 ≤ params.getD i 0 := by
        rw [← htr]
        exact spanTrack_lo deg knots params hpsort hp0 i hi
      refine ⟨i, hi, htr, herr2, ?_, ?_⟩
      · exact (left_scan_global params _ _ hpsort i hi hloi).mp
          ((splitLeftScan_iff params _ _ hpsort i hi).mp hL)
      · exact (splitRightScan_iff params _ _ hpsort params.length i (by omega)).mp hR
    · rintro ⟨i, hi, htr, herr2, hgl, hgr⟩
      have hloi : knots.getD s 0 ≤ params.getD i 0 := by
        rw [← htr]
        exact spanTrack_lo deg knots params hpsort hp0 i hi
      refine ⟨i, hi, htr, herr2, ?_⟩
      rw [Bool.and_eq_true]
      exact ⟨(splitLeftScan_iff params _ _ hpsort i hi).mpr
          ((left_scan_global params _ _ hpsort i hi hloi).mpr hgl),
        (splitRightScan_iff params _ _ hpsort params.length i (by omega)).mpr hgr⟩

/-- Witness for the amended C8 at the concrete curve of the
counterexample. -/
theorem errorCurve_marking_witness :
    (errorCurve 1 [0, 0, 1, 1] [0, 1/4, 3/4, 1]
        (curveMaxErr (fun i _ => if i = 3 then 1 else 0) (fun _ _ => 0) [] 1 0 1 0)
        (1/2)).2 =
      ((List.range ([0, 1/4, 3/4, 1] : List ℚ).length).filter (fun i =>
        decide ((1/2 : ℚ) < curveMaxErr (fun i _ => if i = 3 then 1 else 0)
          (fun _ _ => 0) [] 1 0 1 0 i))).length ∧
    (∀ i < ([0, 1/4, 3/4, 1] : List ℚ).length,
      ([0, 0, 1, 1] : List ℚ).getD (spanTrack 1 [0, 0, 1, 1] [0, 1/4, 3/4, 1] i) 0 ≤
        ([0, 1/4, 3/4, 1] : List ℚ).getD i 0 ∧
      (1 ≤ ([0, 0, 1, 1] : List ℚ).getD
          (spanTrack 1 [0, 0, 1, 1] [0, 1/4, 3/4, 1] i + 1) 0 ∨
        ([0, 1/4, 3/4, 1] : List ℚ).getD i 0 <
          ([0, 0, 1, 1] : List ℚ).getD
            (spanTrack 1 [0, 0, 1, 1] [0, 1/4, 3/4, 1] i + 1) 0)) ∧
    (∀ s, s ∈ (errorCurve 1 [0, 0, 1, 1] [0, 1/4, 3/4, 1]
        (curveMaxErr (fun i _ => if i = 3 then 1 else 0) (fun _ _ => 0) [] 1 0 1 0)
        (1/2)).1 ↔
      ∃ i < ([0, 1/4, 3/4, 1] : List ℚ).length,
        spanTrack 1 [0, 0, 1, 1] [0, 1/4, 3/4, 1] i = s ∧
        (1/2 : ℚ) < curveMaxErr (fun i _ => if i = 3 then 1 else 0)
          (fun _ _ => 0) [] 1 0 1 0 i ∧
        (∃ jj < ([0, 1/4, 3/4, 1] : List ℚ).length,
          ([0, 0, 1, 1] : List ℚ).getD s 0 ≤ ([0, 1/4, 3/4, 1] : List ℚ).getD jj 0 ∧
          ([0, 1/4, 3/4, 1] : List ℚ).getD jj 0 <
            (([0, 0, 1, 1] : List ℚ).getD s 0 +
              ([0, 0, 1, 1] : List ℚ).getD (s + 1) 0) / 2) ∧
        (∃ jj, i ≤ jj ∧ jj < ([0, 1/4, 3/4, 1] : List ℚ).length ∧
          (([0, 0, 1, 1] : List ℚ).getD s 0 +
            ([0, 0, 1, 1] : List ℚ).getD (s + 1) 0) / 2 ≤
            ([0, 1/4, 3/4, 1] : List ℚ).getD jj 0 ∧
          ([0, 1/4, 3/4, 1] : List ℚ).getD jj 0 <
            ([0, 0, 1, 1] : List ℚ).getD (s + 1) 0)) :=
  errorCurve_marking 1 [0, 0, 1, 1] [0, 1/4, 3/4, 1]
    (fun i _ => if i = 3 then 1 else 0) (fun _ _ => 0) [] 1 0 1 0 (1/2) 2
    (by norm_num [List.sorted_cons]) (by norm_num) (by norm_num) (by norm_num)
    (by norm_num)

end MFA
